import Mathlib

/-!
Shallow embedding of `custom_dict.py` (class `Dictionary`): a hash map with
bucket-level chaining plus forward probing to the next bucket, automatic
growth and shrink driven by a load factor, and Python-style heterogeneous
keys (an `int` and a `float` that are equal by value hash identically and
compare equal under `==`, yet have different runtime types).

Conventions of the embedding:
* Python's `Any`-typed keys are modelled by `PyKey`, covering the key kinds
  the repository exercises: `int`, `float` (finite dyadic values, as every
  Python float is), and `str`.  Python `==` between keys is `pyEq`,
  `type(a) is type(b)` is `typeEq`, and `hash` is `pyHash`.
* Values are opaque (a type parameter `V`); the source never hashes or
  compares values.
* Python `float` arithmetic on the load factor is modelled by exact
  rationals (`ℚ`).  For every comparison reachable in this development the
  exact value is far from the decision boundary relative to double
  precision rounding error, so the branch outcomes coincide with CPython's.
  The one place where double semantics is observable — the halving loop of
  `__define_potential_capacity_decrease`, which for `size = 0` underflows to
  the smallest subnormal and then `int()` truncates to `0` — is modelled by
  a fuel-bounded halving loop in exact arithmetic whose `int()` image is
  the same `0` once the fuel exceeds the bit width of any reachable
  capacity (see `cap_fuel`).
* Fallible operations return `Except DictErr`; `KeyError` and
  `ZeroDivisionError` (from `% 0` / `/ 0` on a zero capacity) and the
  `ValueError` of `__init__` are the error constructors.
-/

set_option maxRecDepth 16000

namespace CustomDict

/-- The runtime kinds of keys exercised by the repository: Python `int`,
`float` (finite dyadic rational value) and `str`. -/
inductive PyKey where
  | int (n : ℤ)
  | float (q : ℚ)
  | str (s : String)
deriving DecidableEq, Repr

/-- Python `type(a) is type(b)` on the modelled key universe: the runtime
type tags agree. -/
def typeEq : PyKey → PyKey → Bool
  | .int _, .int _ => true
  | .float _, .float _ => true
  | .str _, .str _ => true
  | _, _ => false

/-- Python `==` on the modelled key universe.  Numeric values compare by
mathematical value across `int`/`float` (so `10 == 10.0` is `True`);
strings compare by content; a string never equals a number. -/
def pyEq : PyKey → PyKey → Bool
  | .int a, .int b => a = b
  | .int a, .float b => (a : ℚ) = b
  | .float a, .int b => a = (b : ℚ)
  | .float a, .float b => a = b
  | .str a, .str b => a = b
  | _, _ => false

/-- The modulus `2^61 - 1` of CPython's numeric hash (`sys.hash_info.modulus`
on 64-bit builds). -/
def pyHashModulus : ℤ := 2 ^ 61 - 1

/-- Fuel-bounded base-2 logarithm (the denominator of a Python float is a
power of two, so this is exact on the values that occur). -/
def log2Fuel : ℕ → ℕ → ℕ
  | _, 0 => 0
  | d, fuel + 1 => if d ≤ 1 then 0 else log2Fuel (d / 2) fuel + 1

/-- CPython's hash of a non-negative dyadic rational `num / 2^k`:
`num * 2^(-k) mod (2^61 - 1)`, where the inverse of `2^k` modulo `2^61 - 1`
is `2^((61 - k % 61) % 61)` because `2^61 ≡ 1`. -/
def pyHashPosRat (num : ℕ) (den : ℕ) : ℤ :=
  let k := log2Fuel den den
  ((num : ℤ) * 2 ^ ((61 - k % 61) % 61)) % pyHashModulus

/-- CPython's numeric hash of a rational value: positive values hash by
`pyHashPosRat`, negative values by negation, and a result of `-1` is
replaced by `-2`. -/
def pyHashRat (q : ℚ) : ℤ :=
  let m : ℤ :=
    if q < 0 then -(pyHashPosRat (-q.num).toNat q.den)
    else pyHashPosRat q.num.toNat q.den
  if m = -1 then -2 else m

/-- A deterministic stand-in for CPython's (seed-randomized) string hash.
The source treats the hash as an externally supplied black box; every
claim proved below about string-keyed tables is insensitive to the
particular values, only to `hash` being a fixed integer-valued function. -/
def pyHashStr (s : String) : ℤ :=
  (s.data.foldl (fun a c => a * 31 + (c.toNat : ℤ)) 7)

/-- Python `hash` on the modelled key universe.  An `int` and a `float` of
equal value hash identically (both go through the numeric scheme). -/
def pyHash : PyKey → ℤ
  | .int n => pyHashRat (n : ℚ)
  | .float q => pyHashRat q
  | .str s => pyHashStr s

/-- The exceptions the source can raise: `KeyError`, `ZeroDivisionError`
(`%`/`/` with a zero capacity), `ValueError` (`__init__` key validation). -/
inductive DictErr where
  | keyError
  | zeroDivisionError
  | valueError
deriving DecidableEq, Repr

/-- One stored entry: the `(key, value, hash)` triple kept in a bucket. -/
abbrev Entry (V : Type) := PyKey × V × ℤ

/-- The state of a `Dictionary` object: `load_factor`, `size`, `capacity`
and the list of buckets (`self.buckets`), each an ordered list of entries. -/
structure Dict (V : Type) where
  load_factor : ℚ
  size : ℤ
  capacity : ℕ
  buckets : List (List (Entry V))
deriving DecidableEq, Repr

/-- Fuel bound for the two capacity-search loops.  CPython's increase loop
terminates in at most `log2` steps for any positive start; its decrease
loop with `size = 0` runs until the float capacity underflows (about 1074
halvings plus the bit width of the start), after which `int()` yields `0`.
1100 steps dominate both for every capacity reachable in this development,
and once the fuel makes the exact value smaller than `1` the `int()` image
agrees with CPython's `0`. -/
def cap_fuel : ℕ := 1100

/-- The loop of `__define_potential_capacity_increase`: double
`previous_capacity` while `previous_capacity * load_factor < size`.  The
comparison is rendered exactly by cross-multiplication with the positive
denominator of the load factor
(`cap_increase_cond_iff`: `c * lf.num < size * lf.den ↔ c * lf < size`). -/
def cap_increase_loop (load_factor : ℚ) (size : ℤ) : ℕ → ℕ → ℕ
  | previous_capacity, 0 => previous_capacity
  | previous_capacity, fuel + 1 =>
    if (previous_capacity : ℤ) * load_factor.num < size * (load_factor.den : ℤ) then
      cap_increase_loop load_factor size (previous_capacity * 2) fuel
    else previous_capacity

/-- `Dictionary.__define_potential_capacity_increase(previous_capacity)`. -/
def define_potential_capacity_increase (load_factor : ℚ) (size : ℤ)
    (previous_capacity : ℕ) : ℕ :=
  cap_increase_loop load_factor size previous_capacity cap_fuel

/-- The loop of `__define_potential_capacity_decrease`: halve
`previous_capacity` (a Python *float* division) while
`previous_capacity / 2 * load_factor > size`, then truncate with `int()`.
After `k` halvings the float accumulator holds exactly
`start_capacity / 2^k` (halving a dyadic double is exact until it
underflows; the underflow region is inside the fuel bound, where both
CPython's `int()` of the subnormal and the exact floor are `0`).  The loop
therefore carries the halving count `k`; its guard is the exact
cross-multiplied form of `start_capacity / 2^(k+1) * load_factor > size`
(`cap_decrease_cond_iff`), and the result is the floor
`start_capacity / 2^k` of the final accumulator, which is what `int()`
returns on a non-negative value. -/
def cap_decrease_loop (load_factor : ℚ) (size : ℤ) (start_capacity : ℕ) :
    ℕ → ℕ → ℕ
  | halvings, 0 => start_capacity / 2 ^ halvings
  | halvings, fuel + 1 =>
    if (start_capacity : ℤ) * load_factor.num >
        size * (load_factor.den : ℤ) * 2 ^ (halvings + 1) then
      cap_decrease_loop load_factor size start_capacity (halvings + 1) fuel
    else start_capacity / 2 ^ halvings

/-- `Dictionary.__define_potential_capacity_decrease(previous_capacity)`. -/
def define_potential_capacity_decrease (load_factor : ℚ) (size : ℤ)
    (previous_capacity : ℕ) : ℕ :=
  cap_decrease_loop load_factor size previous_capacity 0 cap_fuel

/-- All entries of the table in bucket order (`for bucket in self.buckets:
for entry in bucket`). -/
def allEntries (d : Dict V) : List (Entry V) := d.buckets.flatten

/-- The body of the rehash loop of `_resize`: append this entry to bucket
`hash(key) % new_capacity`, recomputing and re-caching the hash. -/
def rehash_step (new_capacity : ℕ) (new_buckets : List (List (Entry V)))
    (e : Entry V) : List (List (Entry V)) :=
  let bucket_index := ((pyHash e.1) % (new_capacity : ℤ)).toNat
  new_buckets.set bucket_index
    (new_buckets.getD bucket_index [] ++ [(e.1, e.2.1, pyHash e.1)])

/-- The rehash loop of `_resize` for a positive `new_capacity`: every entry
of every old bucket, in encountered order, is appended to bucket
`hash(key) % new_capacity` of a fresh array of empty buckets. -/
def rehashAll (new_capacity : ℕ) (entries : List (Entry V)) :
    List (List (Entry V)) :=
  entries.foldl (rehash_step new_capacity) (List.replicate new_capacity [])

/-- `Dictionary._resize(smaller)`.  When the computed `new_capacity` is `0`
(reachable with `size = 0`, see `define_potential_capacity_decrease`) the
first rehashed entry would evaluate `hash(key) % 0` and raise
`ZeroDivisionError`; with no entries the loop body never runs and the
table ends with capacity `0` and an empty bucket array. -/
def resize (d : Dict V) (smaller : Bool) : Except DictErr (Dict V) :=
  let new_capacity :=
    if smaller then define_potential_capacity_decrease d.load_factor d.size d.capacity
    else define_potential_capacity_increase d.load_factor d.size d.capacity
  if new_capacity = 0 then
    if (allEntries d).isEmpty then
      .ok { d with buckets := [], capacity := 0 }
    else .error .zeroDivisionError
  else
    .ok { d with buckets := rehashAll new_capacity (allEntries d),
                 capacity := new_capacity }

/-- `Dictionary._capacity_recalculation(increased)`: resize (with
`smaller=increased`) when `size / capacity >= load_factor`; a zero
capacity raises `ZeroDivisionError` at the division.  The comparison is
the exact cross-multiplied form of `size / capacity >= load_factor` for a
positive capacity (`recalculation_cond_iff`). -/
def capacity_recalculation (d : Dict V) (increased : Bool) :
    Except DictErr (Dict V) :=
  if d.capacity = 0 then .error .zeroDivisionError
  else if d.size * (d.load_factor.den : ℤ) ≥ d.load_factor.num * (d.capacity : ℤ) then
    resize d increased
  else .ok d

/-- The `while bucket:` loop of `_get_bucket_index`, probing from
`bucket_index`: an empty bucket or a bucket containing a `==`-equal,
same-type key is returned; otherwise the probe advances to the next index
modulo the capacity and raises `KeyError` upon wrapping back to
`initial_index`.  The fuel is set to the capacity by the wrapper; the
wrap-around check fires after at most `capacity` advances, so the fuel
never runs out first (`get_bucket_index_fuel_irrelevant` below). -/
def get_bucket_index_loop (buckets : List (List (Entry V))) (capacity : ℕ)
    (key : PyKey) (initial_index : ℕ) : ℕ → ℕ → Except DictErr ℕ
  | bucket_index, fuel =>
    let bucket := buckets.getD bucket_index []
    if bucket.isEmpty then .ok bucket_index
    else if bucket.any (fun e => pyEq e.1 key && typeEq e.1 key) then
      .ok bucket_index
    else
      match fuel with
      | 0 => .error .keyError
      | fuel + 1 =>
        let next := (bucket_index + 1) % capacity
        if next = initial_index then .error .keyError
        else get_bucket_index_loop buckets capacity key initial_index next fuel

/-- `Dictionary._get_bucket_index(key)`: `hash(key) % capacity` (raising
`ZeroDivisionError` on a zero capacity) followed by the probing loop. -/
def get_bucket_index (d : Dict V) (key : PyKey) : Except DictErr ℕ :=
  if d.capacity = 0 then .error .zeroDivisionError
  else
    let initial_index := ((pyHash key) % (d.capacity : ℤ)).toNat
    get_bucket_index_loop d.buckets d.capacity key initial_index
      initial_index d.capacity

/-- `Dictionary.__setitem__(key, value)`: speculatively increment `size`,
run the capacity recalculation, resolve the bucket, then overwrite the
first `==`-equal entry in it (note: `==` only, with no runtime-type
check, unlike the probe) or append a new entry. -/
def setItem (d : Dict V) (key : PyKey) (value : V) :
    Except DictErr (Dict V) := do
  let d := { d with size := d.size + 1 }
  let d ← capacity_recalculation d false
  let bucket_index ← get_bucket_index d key
  let bucket := d.buckets.getD bucket_index []
  match bucket.findIdx? (fun e => pyEq e.1 key) with
  | some i =>
    .ok { d with buckets :=
            d.buckets.set bucket_index (bucket.set i (key, value, pyHash key)) }
  | none =>
    .ok { d with buckets :=
            d.buckets.set bucket_index (bucket ++ [(key, value, pyHash key)]) }

/-- `Dictionary.__getitem__(key)`: resolve the bucket, return the value of
the first `==`-equal entry (again `==` only, no runtime-type check), or
raise `KeyError`. -/
def getItem (d : Dict V) (key : PyKey) : Except DictErr V := do
  let bucket_index ← get_bucket_index d key
  let bucket := d.buckets.getD bucket_index []
  match bucket.find? (fun e => pyEq e.1 key) with
  | some e => .ok e.2.1
  | none => .error .keyError

/-- `Dictionary.__delitem__(key)`: resolve the bucket, remove the first
`==`-equal entry, decrement `size`, and shrink when
`size < capacity // 4`; raise `KeyError` when no entry matches. -/
def delItem (d : Dict V) (key : PyKey) : Except DictErr (Dict V) := do
  let bucket_index ← get_bucket_index d key
  let bucket := d.buckets.getD bucket_index []
  match bucket.findIdx? (fun e => pyEq e.1 key) with
  | some i =>
    let d := { d with buckets := d.buckets.set bucket_index (bucket.eraseIdx i),
                      size := d.size - 1 }
    if d.size < ((d.capacity / 4 : ℕ) : ℤ) then resize d true else .ok d
  | none => .error .keyError

/-- `Dictionary.__contains__(key)`: `try: self[key]; return True` with
`except KeyError: return False`.  Only `KeyError` is caught; any other
exception (the `ZeroDivisionError` of a zero capacity) propagates. -/
def containsKey (d : Dict V) (key : PyKey) : Except DictErr Bool :=
  match getItem d key with
  | .ok _ => .ok true
  | .error .keyError => .ok false
  | .error e => .error e

/-- `Dictionary.__len__()`: the stored `size` counter (not a recount of the
entries). -/
def lenDict (d : Dict V) : ℤ := d.size

/-- `Dictionary.__iter__()`: the `(key, value)` pairs, buckets in index
order and entries in storage order. -/
def iterPairs (d : Dict V) : List (PyKey × V) :=
  (allEntries d).map (fun e => (e.1, e.2.1))

/-- `hasattr(key, "__hash__")`: every Python object carries the attribute
(possibly bound to `None`), so this is `True` on the whole modelled key
universe. -/
def hasAttrHash (_ : PyKey) : Bool := true

/-- `Dictionary.validate_keys(keys)`. -/
def validate_keys (keys : List PyKey) : Bool := keys.all hasAttrHash

/-- The keyword-argument loop of `__init__`: each pair is placed by the
same bucket-resolution rule as `__setitem__` but with no per-insert
capacity recalculation.  Faithful quirk: on finding an `==`-equal entry
the source executes `return` inside `__init__`, so the remaining pairs
are silently dropped (unreachable for the distinct string keys that
`**kwargs` supplies). -/
def initLoop (d : Dict V) : List (PyKey × V) → Except DictErr (Dict V)
  | [] => .ok d
  | (key, value) :: rest => do
    let bucket_index ← get_bucket_index d key
    let bucket := d.buckets.getD bucket_index []
    match bucket.findIdx? (fun e => pyEq e.1 key) with
    | some i =>
      .ok { d with buckets :=
              d.buckets.set bucket_index (bucket.set i (key, value, pyHash key)) }
    | none =>
      initLoop
        { d with buckets :=
            d.buckets.set bucket_index (bucket ++ [(key, value, pyHash key)]) }
        rest

/-- `Dictionary.__init__(initial_capacity, load_factor, **kwargs)`:
validate the keys (raising `ValueError` otherwise), set `size` to the
number of pairs, compute the capacity once by the growth search seeded
from `initial_capacity`, allocate that many empty buckets, and insert
every pair with no per-insert resize check. -/
def initDict (initial_capacity : ℕ) (load_factor : ℚ)
    (pairs : List (PyKey × V)) : Except DictErr (Dict V) :=
  if validate_keys (pairs.map Prod.fst) then
    let size : ℤ := pairs.length
    let capacity := define_potential_capacity_increase load_factor size
      initial_capacity
    initLoop
      { load_factor := load_factor, size := size, capacity := capacity,
        buckets := List.replicate capacity [] }
      pairs
  else .error .valueError

/-- The default `load_factor` literal `2 / 3` of `__init__`, written with
the kernel-computable constructor (`default_load_factor_eq` below checks
it is the rational `2 / 3`). -/
def default_load_factor : ℚ := mkRat 2 3

/-! ### Fidelity of the cross-multiplied load-factor comparisons

The three comparisons that the source writes on Python floats are rendered
above by exact integer cross-multiplication.  The lemmas below certify
that each rendered guard is equivalent to the original rational
inequality. -/

theorem default_load_factor_eq : default_load_factor = 2 / 3 := by
  rw [default_load_factor, Rat.mkRat_eq_div]
  norm_num

/-- The guard of `cap_increase_loop` is exactly
`previous_capacity * load_factor < size`. -/
theorem cap_increase_cond_iff (lf : ℚ) (size : ℤ) (c : ℕ) :
    ((c : ℤ) * lf.num < size * (lf.den : ℤ)) ↔ ((c : ℚ) * lf < (size : ℚ)) := by
  have hden : (0 : ℚ) < (lf.den : ℚ) := by exact_mod_cast lf.pos
  have key : ((c : ℚ) * lf < (size : ℚ)) ↔
      ((c : ℚ) * (lf.num : ℚ) < (size : ℚ) * (lf.den : ℚ)) := by
    nth_rewrite 1 [← Rat.num_div_den lf]
    rw [← mul_div_assoc]
    exact div_lt_iff hden
  rw [key]
  constructor <;> intro h <;> exact_mod_cast h

/-- The guard of `cap_decrease_loop` at halving count `k` is exactly
`(start_capacity / 2^k) / 2 * load_factor > size`. -/
theorem cap_decrease_cond_iff (lf : ℚ) (size : ℤ) (c k : ℕ) :
    ((c : ℤ) * lf.num > size * (lf.den : ℤ) * 2 ^ (k + 1)) ↔
      ((c : ℚ) / 2 ^ k / 2 * lf > (size : ℚ)) := by
  have hden : (0 : ℚ) < (lf.den : ℚ) := by exact_mod_cast lf.pos
  have rep : (c : ℚ) / 2 ^ k / 2 * lf =
      ((c : ℚ) * (lf.num : ℚ)) / ((2 : ℚ) ^ (k + 1) * (lf.den : ℚ)) := by
    nth_rewrite 1 [← Rat.num_div_den lf]
    rw [div_div, ← pow_succ, div_mul_div_comm]
  rw [rep, gt_iff_lt, gt_iff_lt, lt_div_iff (by positivity)]
  constructor <;> intro h
  · have h' : ((size * (lf.den : ℤ) * 2 ^ (k + 1) : ℤ) : ℚ) < (((c : ℤ) * lf.num : ℤ) : ℚ) := by
      exact_mod_cast h
    push_cast at h' ⊢
    linarith
  · have h' : (size : ℚ) * (lf.den : ℚ) * 2 ^ (k + 1) < (c : ℚ) * (lf.num : ℚ) := by
      push_cast at h ⊢
      linarith
    exact_mod_cast h'

/-- The guard of `capacity_recalculation` is exactly
`size / capacity >= load_factor` whenever the capacity is positive. -/
theorem recalculation_cond_iff (lf : ℚ) (size : ℤ) (c : ℕ) (hc : c ≠ 0) :
    (size * (lf.den : ℤ) ≥ lf.num * (c : ℤ)) ↔ ((size : ℚ) / (c : ℚ) ≥ lf) := by
  have hden : (0 : ℚ) < (lf.den : ℚ) := by exact_mod_cast lf.pos
  have hcpos : (0 : ℚ) < (c : ℚ) := by exact_mod_cast Nat.pos_of_ne_zero hc
  have key : ((size : ℚ) / (c : ℚ) ≥ lf) ↔
      ((lf.num : ℚ) * (c : ℚ) ≤ (size : ℚ) * (lf.den : ℚ)) := by
    nth_rewrite 1 [← Rat.num_div_den lf]
    exact div_le_div_iff hden hcpos
  rw [key]
  constructor <;> intro h <;> exact_mod_cast h

/-! ### Generic frame lemmas -/

theorem except_ok_bind {ε α β : Type} (a : α) (f : α → Except ε β) :
    (Except.ok a : Except ε α) >>= f = f a := rfl

theorem except_error_bind {ε α β : Type} (e : ε) (f : α → Except ε β) :
    (Except.error e : Except ε α) >>= f = .error e := rfl

/-- `_resize` never touches the `size` counter. -/
theorem resize_size {V : Type} (d : Dict V) (smaller : Bool) (d' : Dict V)
    (h : resize d smaller = .ok d') : d'.size = d.size := by
  simp only [resize] at h
  split_ifs at h <;> first | (cases h; rfl) | exact Except.noConfusion h

/-- `_resize` never touches the load factor. -/
theorem resize_load_factor {V : Type} (d : Dict V) (smaller : Bool) (d' : Dict V)
    (h : resize d smaller = .ok d') : d'.load_factor = d.load_factor := by
  simp only [resize] at h
  split_ifs at h <;> first | (cases h; rfl) | exact Except.noConfusion h

/-- `Dictionary()`: the fresh table with the default parameters. -/
def base0 : Dict ℕ :=
  ⟨mkRat 2 3, 0, 8, [[], [], [], [], [], [], [], []]⟩

theorem base0_eq : initDict 8 default_load_factor [] = .ok base0 := rfl

def c1s1 : Dict ℕ := ⟨mkRat 2 3, 1, 8, [[], [], [(.int 10, 1, 10)], [], [], [], [], []]⟩
def c1s2 : Dict ℕ := ⟨mkRat 2 3, 2, 8, [[], [], [(.int 10, 1, 10)], [(.float 10, 2, 10)], [], [], [], []]⟩
def c1s3 : Dict ℕ := ⟨mkRat 2 3, 3, 8, [[], [(.int 1, 0, 1)], [(.int 10, 1, 10)], [(.float 10, 2, 10)], [], [], [], []]⟩
def c1s4 : Dict ℕ := ⟨mkRat 2 3, 4, 8, [[], [(.int 1, 0, 1)], [(.int 10, 1, 10)], [(.float 10, 2, 10)], [(.int 2, 0, 2)], [], [], []]⟩
def c1s5 : Dict ℕ := ⟨mkRat 2 3, 5, 8, [[], [(.int 1, 0, 1)], [(.int 10, 1, 10)], [(.float 10, 2, 10)], [(.int 2, 0, 2)], [(.int 3, 0, 3)], [], []]⟩
def c1s6 : Dict ℕ := ⟨mkRat 2 3, 6, 16, [[], [(.int 1, 0, 1)], [(.int 2, 0, 2)], [(.int 3, 0, 3)], [(.int 4, 0, 4)], [], [], [], [], [], [(.int 10, 1, 10), (.float 10, 2, 10)], [], [], [], [], []]⟩
def c1s7 : Dict ℕ := ⟨mkRat 2 3, 7, 16, [[], [(.int 1, 0, 1)], [(.int 2, 0, 2)], [(.int 3, 0, 3)], [(.int 4, 0, 4)], [], [], [], [], [], [(.float 10, 3, 10), (.float 10, 2, 10)], [], [], [], [], []]⟩

theorem c1_step1 : setItem base0 (.int 10) 1 = .ok c1s1 := rfl
theorem c1_step2 : setItem c1s1 (.float 10) 2 = .ok c1s2 := rfl
theorem c1_step3 : setItem c1s2 (.int 1) 0 = .ok c1s3 := rfl
theorem c1_step4 : setItem c1s3 (.int 2) 0 = .ok c1s4 := rfl
theorem c1_step5 : setItem c1s4 (.int 3) 0 = .ok c1s5 := rfl
theorem c1_step6 : setItem c1s5 (.int 4) 0 = .ok c1s6 := rfl
theorem c1_step7 : setItem c1s6 (.float 10) 3 = .ok c1s7 := rfl

/-- The sequence `d = Dictionary(); d[10] = 1; d[10.0] = 2;` followed by four
more integer-key inserts, the last of which triggers the resize to
capacity 16 that rehashes `10` and `10.0` into the same bucket. -/
def c1trace : Except DictErr (Dict ℕ) := do
  let d ← initDict 8 default_load_factor []
  let d ← setItem d (.int 10) 1
  let d ← setItem d (.float 10) 2
  let d ← setItem d (.int 1) 0
  let d ← setItem d (.int 2) 0
  let d ← setItem d (.int 3) 0
  setItem d (.int 4) 0

theorem c1trace_eq : c1trace = .ok c1s6 := by
  rw [c1trace]
  simp only [base0_eq, except_ok_bind, c1_step1, c1_step2, c1_step3, c1_step4,
    c1_step5, c1_step6]

/-- Same prefix followed by `d[10.0] = 3`: the `==`-only overwrite scan hits
the `int` entry first and replaces its key with `10.0`. -/
def c4trace : Except DictErr (Dict ℕ) := do
  let d ← c1trace
  setItem d (.float 10) 3

theorem c4trace_eq : c4trace = .ok c1s7 := by
  rw [c4trace]
  simp only [c1trace_eq, except_ok_bind, c1_step7]

def c2s1 : Dict ℕ := ⟨mkRat 2 3, 1, 8, [[], [(.str "key1", 1, 9753145)], [], [], [], [], [], []]⟩
def c3sA : Dict ℕ := ⟨mkRat 2 3, 1, 8, [[], [], [(.str "a", 1, 314)], [], [], [], [], []]⟩

/-- The state after deleting the only key: the shrink loop underflows and
`int()` leaves a zero capacity with an empty bucket array. -/
def c3sB : Dict ℕ := ⟨mkRat 2 3, 0, 0, []⟩

theorem c3_stepA : setItem base0 (.str "a") 1 = .ok c3sA := rfl
theorem c3_stepB : delItem c3sA (.str "a") = .ok c3sB := rfl

/-- `d = Dictionary(); d["a"] = 1; del d["a"]`. -/
def c3trace : Except DictErr (Dict ℕ) := do
  let d ← initDict 8 default_load_factor []
  let d ← setItem d (.str "a") 1
  delItem d (.str "a")

theorem c3trace_eq : c3trace = .ok c3sB := by
  rw [c3trace]
  simp only [base0_eq, except_ok_bind, c3_stepA, c3_stepB]

/-! ### Claim theorems -/

/-- C1: the spec requires that `10` and `10.0` stay two distinct entries
with `get` on each returning the value most recently set for that
exact-typed key.  The code stores them as two entries, but after the
resize rehashes both into one bucket, `__getitem__`'s `==`-only scan
returns the `int` entry's value `1` for the key `10.0`, whose most
recently set value is `2`.  The probe (`_get_bucket_index`) carries the
runtime-type check; the value scans do not — contradicting the spec's
"linear-scan the bucket for an equal, same-type key" and the intent of
the repository's own `test_collision_same_hash_keys`. -/
theorem c1_code_bug_eval :
    c1trace = .ok c1s6 ∧ getItem c1s6 (.float 10) = .ok 1 ∧
      getItem c1s6 (.int 10) = .ok 1 :=
  ⟨c1trace_eq, rfl, rfl⟩

/-- C4 (code bug, same missing type check as C1): after the resize,
`d[10.0] = 3` overwrites the `int 10` entry (replacing even its key), so
`get(10)` — a key that was set and never deleted — raises `KeyError`
instead of returning its most recently set value `1`. -/
theorem c4_code_bug_eval :
    c4trace = .ok c1s7 ∧ getItem c1s7 (.int 10) = .error .keyError :=
  ⟨c4trace_eq, rfl⟩

/-- C3: deleting the last key of a default-parameter table triggers the
shrink path with `size = 0`; the halving loop runs the float capacity
into underflow and `int()` makes the capacity `0` — the spec's "capacity
is always a positive integer" is violated and the table is unusable
afterwards (every later operation divides or mods by zero). -/
theorem c3_code_bug_eval : c3trace = .ok c3sB ∧ c3sB.capacity = 0 :=
  ⟨c3trace_eq, rfl⟩

/-- C6: on the reachable capacity-zero state left behind by C3's shrink
defect, `__setitem__` raises `ZeroDivisionError` at
`size / capacity` — contradicting "set never fails". -/
theorem c6_code_bug_eval :
    c3trace = .ok c3sB ∧ setItem c3sB (.str "b") 2 = .error .zeroDivisionError :=
  ⟨c3trace_eq, rfl⟩

/-- C9 counterexample: on the reachable capacity-zero state,
`__contains__` does not return a boolean: the lookup raises
`ZeroDivisionError`, which is not a `KeyError` and therefore propagates
out of the `try/except KeyError` block. -/
theorem c9_counterexample :
    c3trace = .ok c3sB ∧ containsKey c3sB (.str "a") = .error .zeroDivisionError :=
  ⟨c3trace_eq, rfl⟩

/-! ### Error characterization of the probe and of lookup -/

/-- Every error the probing loop can raise is a `KeyError` (the wrap-around
case and the fuel guard, which models the same wrap-around). -/
theorem get_bucket_index_loop_error {V : Type} (buckets : List (List (Entry V)))
    (capacity : ℕ) (key : PyKey) (initial_index : ℕ) :
    ∀ (fuel bucket_index : ℕ) (e : DictErr),
      get_bucket_index_loop buckets capacity key initial_index bucket_index fuel =
        .error e → e = .keyError := by
  intro fuel
  induction fuel with
  | zero =>
    intro idx e h
    simp only [get_bucket_index_loop] at h
    split_ifs at h <;>
      first
      | exact Except.noConfusion h
      | exact ((Except.error.injEq _ _).mp h).symm
  | succ f ih =>
    intro idx e h
    simp only [get_bucket_index_loop] at h
    split_ifs at h <;>
      first
      | exact Except.noConfusion h
      | exact ((Except.error.injEq _ _).mp h).symm
      | exact ih _ _ h

/-- With a positive capacity, `_get_bucket_index` can only raise `KeyError`. -/
theorem get_bucket_index_error {V : Type} (d : Dict V) (key : PyKey) (e : DictErr)
    (hcap : d.capacity ≠ 0) (h : get_bucket_index d key = .error e) :
    e = .keyError := by
  rw [get_bucket_index, if_neg hcap] at h
  exact get_bucket_index_loop_error _ _ _ _ _ _ _ h

/-- With a positive capacity, `__getitem__` can only raise `KeyError`. -/
theorem getItem_error {V : Type} (d : Dict V) (key : PyKey) (e : DictErr)
    (hcap : d.capacity ≠ 0) (h : getItem d key = .error e) : e = .keyError := by
  rw [getItem] at h
  cases hbi : get_bucket_index d key with
  | error e' =>
    rw [hbi, except_error_bind] at h
    injection h with h'
    exact h' ▸ get_bucket_index_error d key e' hcap hbi
  | ok bucket_index =>
    rw [hbi] at h
    simp only [except_ok_bind] at h
    cases hf : (d.buckets.getD bucket_index []).find? (fun en => pyEq en.1 key) with
    | some en =>
      simp only [hf] at h
      exact Except.noConfusion h
    | none =>
      simp only [hf] at h
      exact ((Except.error.injEq _ _).mp h).symm

/-- C9 amended: on every state with a nonzero capacity, `__contains__`
returns a boolean, `true` exactly when `__getitem__` would succeed, and
never propagates `KeyError`.  (The embedding is functional, so the
absence of mutation is structural: `containsKey` produces no state.)
On the capacity-zero states reachable through the shrink defect it
propagates `ZeroDivisionError` instead — see `c9_counterexample`. -/
theorem c9_contains_boolean {V : Type} (d : Dict V) (key : PyKey)
    (hcap : d.capacity ≠ 0) :
    ∃ b : Bool, containsKey d key = .ok b ∧
      (b = true ↔ ∃ v, getItem d key = .ok v) := by
  cases hg : getItem d key with
  | ok v =>
    refine ⟨true, ?_, ?_⟩
    · rw [containsKey, hg]
    · exact ⟨fun _ => ⟨v, rfl⟩, fun _ => rfl⟩
  | error e =>
    have he : e = .keyError := getItem_error d key e hcap hg
    subst he
    refine ⟨false, ?_, ?_⟩
    · rw [containsKey, hg]
    · constructor
      · intro hb
        exact absurd hb (by decide)
      · rintro ⟨v, hv⟩
        exact Except.noConfusion hv

theorem c9_contains_boolean_witness :
    ∃ b : Bool, containsKey c2s1 (.str "key1") = .ok b ∧
      (b = true ↔ ∃ v, getItem c2s1 (.str "key1") = .ok v) :=
  c9_contains_boolean c2s1 (.str "key1") (by decide)

/-! ### Termination and result characterization of the probe (C10) -/

/-- `hash(key) % capacity`: the start of the probe. -/
def initial_bucket (key : PyKey) (capacity : ℕ) : ℕ :=
  ((pyHash key) % (capacity : ℤ)).toNat

theorem initial_bucket_lt (key : PyKey) (capacity : ℕ) (h : 0 < capacity) :
    initial_bucket key capacity < capacity := by
  have h0 : (0 : ℤ) ≤ pyHash key % (capacity : ℤ) :=
    Int.emod_nonneg _ (by exact_mod_cast Nat.pos_iff_ne_zero.mp h)
  have h1 : pyHash key % (capacity : ℤ) < (capacity : ℤ) :=
    Int.emod_lt_of_pos _ (by exact_mod_cast h)
  rw [initial_bucket]
  omega

theorem get_bucket_index_eq_loop {V : Type} (d : Dict V) (key : PyKey)
    (hcap : d.capacity ≠ 0) :
    get_bucket_index d key =
      get_bucket_index_loop d.buckets d.capacity key
        (initial_bucket key d.capacity) (initial_bucket key d.capacity)
        d.capacity := by
  rw [get_bucket_index, if_neg hcap]
  rfl

/-- Probe-loop unfolding: an empty bucket is returned at once. -/
theorem gbil_of_empty {V : Type} {buckets : List (List (Entry V))}
    {capacity : ℕ} {key : PyKey} {initial_index bucket_index fuel : ℕ}
    (h : (buckets.getD bucket_index []).isEmpty = true) :
    get_bucket_index_loop buckets capacity key initial_index bucket_index fuel =
      .ok bucket_index := by
  cases fuel <;> (simp only [get_bucket_index_loop]; rw [if_pos h])

/-- Probe-loop unfolding: a bucket holding a `==`-equal, same-type key is
returned at once. -/
theorem gbil_of_match {V : Type} {buckets : List (List (Entry V))}
    {capacity : ℕ} {key : PyKey} {initial_index bucket_index fuel : ℕ}
    (h : (buckets.getD bucket_index []).any
      (fun e => pyEq e.1 key && typeEq e.1 key) = true) :
    get_bucket_index_loop buckets capacity key initial_index bucket_index fuel =
      .ok bucket_index := by
  cases fuel <;>
    (simp only [get_bucket_index_loop]
     by_cases he : (buckets.getD bucket_index []).isEmpty = true
     · rw [if_pos he]
     · rw [if_neg he, if_pos h])

/-- Probe-loop unfolding: a non-empty, non-matching bucket advances the
probe (raising `KeyError` when the next index wraps to the start). -/
theorem gbil_advance {V : Type} {buckets : List (List (Entry V))}
    {capacity : ℕ} {key : PyKey} {initial_index bucket_index fuel : ℕ}
    (h1 : (buckets.getD bucket_index []).isEmpty = false)
    (h2 : (buckets.getD bucket_index []).any
      (fun e => pyEq e.1 key && typeEq e.1 key) = false) :
    get_bucket_index_loop buckets capacity key initial_index bucket_index
        (fuel + 1) =
      if (bucket_index + 1) % capacity = initial_index then .error .keyError
      else get_bucket_index_loop buckets capacity key initial_index
        ((bucket_index + 1) % capacity) fuel := by
  simp only [get_bucket_index_loop]
  rw [if_neg (Bool.eq_false_iff.mp h1), if_neg (Bool.eq_false_iff.mp h2)]

theorem gbil_zero {V : Type} {buckets : List (List (Entry V))}
    {capacity : ℕ} {key : PyKey} {initial_index bucket_index : ℕ}
    (h1 : (buckets.getD bucket_index []).isEmpty = false)
    (h2 : (buckets.getD bucket_index []).any
      (fun e => pyEq e.1 key && typeEq e.1 key) = false) :
    get_bucket_index_loop buckets capacity key initial_index bucket_index 0 =
      .error .keyError := by
  simp only [get_bucket_index_loop]
  rw [if_neg (Bool.eq_false_iff.mp h1), if_neg (Bool.eq_false_iff.mp h2)]

/-- Advancing by a multiple of the capacity returns to the same index. -/
theorem add_mod_eq_self_dvd {initial_index n m : ℕ} (hinit : initial_index < n)
    (h : (initial_index + m) % n = initial_index) : n ∣ m := by
  have h' : (initial_index + m) % n = (initial_index + 0) % n := by
    rw [Nat.add_zero, Nat.mod_eq_of_lt hinit]
    exact h
  exact (Nat.modEq_zero_iff_dvd).mp
    (Nat.ModEq.add_left_cancel (Nat.ModEq.refl initial_index) h')

/-- Distinct probe offsets below the capacity reach distinct buckets. -/
theorem probe_offset_injective {initial_index n u t : ℕ}
    (hu : u < n) (ht : t < n)
    (h : (initial_index + u) % n = (initial_index + t) % n) : u = t := by
  rcases Nat.le_total u t with hle | hle
  · have hdecomp : initial_index + t = (initial_index + u) + (t - u) := by omega
    have h2 : ((initial_index + u) % n + (t - u)) % n = (initial_index + u) % n := by
      rw [Nat.mod_add_mod, ← hdecomp]
      exact h.symm
    have hdvd : n ∣ (t - u) :=
      add_mod_eq_self_dvd (Nat.mod_lt _ (by omega)) h2
    rcases Nat.eq_zero_of_dvd_of_lt hdvd (by omega) with h0
    omega
  · have hdecomp : initial_index + u = (initial_index + t) + (u - t) := by omega
    have h2 : ((initial_index + t) % n + (u - t)) % n = (initial_index + t) % n := by
      rw [Nat.mod_add_mod, ← hdecomp]
      exact h
    have hdvd : n ∣ (u - t) :=
      add_mod_eq_self_dvd (Nat.mod_lt _ (by omega)) h2
    rcases Nat.eq_zero_of_dvd_of_lt hdvd (by omega) with h0
    omega

/-- Core walk lemma for the probe: starting `s` steps beyond the initial
index with enough fuel to wrap once, the loop either stops at the first
(from distance `s`) empty-or-matching bucket, or raises `KeyError` — and
in the latter case every probed bucket out to the wrap is non-empty and
match-free. -/
theorem gbil_spec {V : Type} (buckets : List (List (Entry V))) (capacity : ℕ)
    (key : PyKey) (initial_index : ℕ) (hinit : initial_index < capacity) :
    ∀ (fuel s : ℕ), s < capacity → capacity ≤ fuel + s →
      (∃ t, s ≤ t ∧ t < capacity ∧
        get_bucket_index_loop buckets capacity key initial_index
            ((initial_index + s) % capacity) fuel =
          .ok ((initial_index + t) % capacity) ∧
        (∀ u, s ≤ u → u < t →
          (buckets.getD ((initial_index + u) % capacity) []).isEmpty = false ∧
          (buckets.getD ((initial_index + u) % capacity) []).any
            (fun e => pyEq e.1 key && typeEq e.1 key) = false) ∧
        ((buckets.getD ((initial_index + t) % capacity) []).isEmpty = true ∨
          (buckets.getD ((initial_index + t) % capacity) []).any
            (fun e => pyEq e.1 key && typeEq e.1 key) = true)) ∨
      (get_bucket_index_loop buckets capacity key initial_index
          ((initial_index + s) % capacity) fuel = .error .keyError ∧
        ∀ u, s ≤ u → u < capacity →
          (buckets.getD ((initial_index + u) % capacity) []).isEmpty = false ∧
          (buckets.getD ((initial_index + u) % capacity) []).any
            (fun e => pyEq e.1 key && typeEq e.1 key) = false) := by
  intro fuel
  induction fuel with
  | zero =>
    intro s hs hcs
    omega
  | succ f ih =>
    intro s hs hcs
    by_cases hempty :
        (buckets.getD ((initial_index + s) % capacity) []).isEmpty = true
    · exact Or.inl ⟨s, le_refl s, hs, gbil_of_empty hempty,
        fun u hu1 hu2 => absurd (lt_of_le_of_lt hu1 hu2) (lt_irrefl s),
        Or.inl hempty⟩
    · by_cases hmatch :
          (buckets.getD ((initial_index + s) % capacity) []).any
            (fun e => pyEq e.1 key && typeEq e.1 key) = true
      · exact Or.inl ⟨s, le_refl s, hs, gbil_of_match hmatch,
          fun u hu1 hu2 => absurd (lt_of_le_of_lt hu1 hu2) (lt_irrefl s),
          Or.inr hmatch⟩
      · have he : (buckets.getD ((initial_index + s) % capacity) []).isEmpty = false :=
          Bool.eq_false_iff.mpr hempty
        have hm : (buckets.getD ((initial_index + s) % capacity) []).any
            (fun e => pyEq e.1 key && typeEq e.1 key) = false :=
          Bool.eq_false_iff.mpr hmatch
        rw [gbil_advance he hm]
        have hnext : ((initial_index + s) % capacity + 1) % capacity =
            (initial_index + (s + 1)) % capacity := by
          rw [Nat.mod_add_mod, Nat.add_assoc]
        rw [hnext]
        by_cases hwrap : (initial_index + (s + 1)) % capacity = initial_index
        · rw [if_pos hwrap]
          have hdvd : capacity ∣ (s + 1) := add_mod_eq_self_dvd hinit hwrap
          have hcap : s + 1 = capacity := by
            have := Nat.le_of_dvd (by omega) hdvd
            omega
          refine Or.inr ⟨rfl, ?_⟩
          intro u hu1 hu2
          have : u = s := by omega
          subst this
          exact ⟨he, hm⟩
        · rw [if_neg hwrap]
          have hs1 : s + 1 < capacity := by
            rcases Nat.lt_or_ge (s + 1) capacity with h' | h'
            · exact h'
            · exfalso
              have hs1c : s + 1 = capacity := by omega
              apply hwrap
              rw [hs1c, Nat.add_mod_right]
              exact Nat.mod_eq_of_lt hinit
          rcases ih (s + 1) hs1 (by omega) with
            ⟨t, ht1, ht2, hloop, hwalk, hstop⟩ | ⟨herr, hchar⟩
          · refine Or.inl ⟨t, by omega, ht2, hloop, ?_, hstop⟩
            intro u hu1 hu2
            rcases Nat.eq_or_lt_of_le hu1 with hequ | hltu
            · subst hequ
              exact ⟨he, hm⟩
            · exact hwalk u hltu hu2
          · refine Or.inr ⟨herr, ?_⟩
            intro u hu1 hu2
            rcases Nat.eq_or_lt_of_le hu1 with hequ | hltu
            · subst hequ
              exact ⟨he, hm⟩
            · exact hchar u hltu hu2

/-- Fuel irrelevance: any fuel that allows one full wrap gives the result
of the canonical fuel (`capacity`), so the loop is determined within at
most `capacity` bucket visits. -/
theorem gbil_fuel_eq {V : Type} (buckets : List (List (Entry V))) (capacity : ℕ)
    (key : PyKey) (initial_index : ℕ) (hinit : initial_index < capacity) :
    ∀ (f1 f2 s : ℕ), s < capacity → capacity ≤ f1 + s → capacity ≤ f2 + s →
      get_bucket_index_loop buckets capacity key initial_index
          ((initial_index + s) % capacity) f1 =
        get_bucket_index_loop buckets capacity key initial_index
          ((initial_index + s) % capacity) f2 := by
  intro f1
  induction f1 with
  | zero =>
    intro f2 s hs h1 h2
    omega
  | succ f ih =>
    intro f2 s hs h1 h2
    by_cases hempty :
        (buckets.getD ((initial_index + s) % capacity) []).isEmpty = true
    · rw [gbil_of_empty hempty, gbil_of_empty hempty]
    · by_cases hmatch :
          (buckets.getD ((initial_index + s) % capacity) []).any
            (fun e => pyEq e.1 key && typeEq e.1 key) = true
      · rw [gbil_of_match hmatch, gbil_of_match hmatch]
      · have he : (buckets.getD ((initial_index + s) % capacity) []).isEmpty = false :=
          Bool.eq_false_iff.mpr (fun hc => hempty hc)
        have hm : (buckets.getD ((initial_index + s) % capacity) []).any
            (fun e => pyEq e.1 key && typeEq e.1 key) = false :=
          Bool.eq_false_iff.mpr (fun hc => hmatch hc)
        cases f2 with
        | zero => omega
        | succ f2' =>
          rw [gbil_advance he hm, gbil_advance he hm]
          have hnext : ((initial_index + s) % capacity + 1) % capacity =
              (initial_index + (s + 1)) % capacity := by
            rw [Nat.mod_add_mod, Nat.add_assoc]
          rw [hnext]
          by_cases hwrap : (initial_index + (s + 1)) % capacity = initial_index
          · rw [if_pos hwrap, if_pos hwrap]
          · rw [if_neg hwrap, if_neg hwrap]
            have hs1 : s + 1 < capacity := by
              rcases Nat.lt_or_ge (s + 1) capacity with h' | h'
              · exact h'
              · exfalso
                have hs1c : s + 1 = capacity := by omega
                apply hwrap
                rw [hs1c, Nat.add_mod_right]
                exact Nat.mod_eq_of_lt hinit
            exact ih f2' (s + 1) hs1 (by omega) (by omega)

/-- C10: on a table with positive capacity the probe terminates within at
most `capacity` bucket visits — any fuel of at least `capacity` computes
the same result as `_get_bucket_index` itself — and that result is
either `ok i` where `i` is the first probed index (at offset `t` from
`hash(key) % capacity`, every earlier probed bucket being non-empty and
match-free) whose bucket is empty or holds a same-type `==`-equal key,
or the `KeyError` of wrapping back to the start. -/
theorem c10_probe_terminates {V : Type} (d : Dict V) (key : PyKey)
    (hcap : 1 ≤ d.capacity) :
    ((∃ t, t < d.capacity ∧
        get_bucket_index d key =
          .ok ((initial_bucket key d.capacity + t) % d.capacity) ∧
        (∀ u, u < t →
          (d.buckets.getD ((initial_bucket key d.capacity + u) % d.capacity)
            []).isEmpty = false ∧
          (d.buckets.getD ((initial_bucket key d.capacity + u) % d.capacity)
            []).any (fun e => pyEq e.1 key && typeEq e.1 key) = false) ∧
        ((d.buckets.getD ((initial_bucket key d.capacity + t) % d.capacity)
            []).isEmpty = true ∨
          (d.buckets.getD ((initial_bucket key d.capacity + t) % d.capacity)
            []).any (fun e => pyEq e.1 key && typeEq e.1 key) = true)) ∨
      get_bucket_index d key = .error .keyError) ∧
    (∀ fuel, d.capacity ≤ fuel →
      get_bucket_index_loop d.buckets d.capacity key
          (initial_bucket key d.capacity) (initial_bucket key d.capacity) fuel =
        get_bucket_index d key) := by
  have hpos : 0 < d.capacity := hcap
  have hne : d.capacity ≠ 0 := Nat.pos_iff_ne_zero.mp hpos
  have hinit : initial_bucket key d.capacity < d.capacity :=
    initial_bucket_lt key d.capacity hpos
  have hzero : (initial_bucket key d.capacity + 0) % d.capacity =
      initial_bucket key d.capacity := by
    rw [Nat.add_zero]
    exact Nat.mod_eq_of_lt hinit
  constructor
  · rcases gbil_spec d.buckets d.capacity key (initial_bucket key d.capacity)
      hinit d.capacity 0 hpos (by omega) with
      ⟨t, _, ht2, hloop, hwalk, hstop⟩ | ⟨herr, _⟩
    · rw [hzero] at hloop
      rw [get_bucket_index_eq_loop d key hne]
      exact Or.inl ⟨t, ht2, hloop, fun u hu => hwalk u (Nat.zero_le u) hu, hstop⟩
    · rw [hzero] at herr
      rw [get_bucket_index_eq_loop d key hne]
      exact Or.inr herr
  · intro fuel hfuel
    rw [get_bucket_index_eq_loop d key hne]
    have := gbil_fuel_eq d.buckets d.capacity key (initial_bucket key d.capacity)
      hinit fuel d.capacity 0 hpos (by omega) (by omega)
    rw [hzero] at this
    exact this

theorem c10_probe_terminates_witness :
    ((∃ t, t < c2s1.capacity ∧
        get_bucket_index c2s1 (.str "key9") =
          .ok ((initial_bucket (.str "key9") c2s1.capacity + t) % c2s1.capacity) ∧
        (∀ u, u < t →
          (c2s1.buckets.getD
            ((initial_bucket (.str "key9") c2s1.capacity + u) % c2s1.capacity)
            []).isEmpty = false ∧
          (c2s1.buckets.getD
            ((initial_bucket (.str "key9") c2s1.capacity + u) % c2s1.capacity)
            []).any (fun e => pyEq e.1 (.str "key9") && typeEq e.1 (.str "key9")) =
            false) ∧
        ((c2s1.buckets.getD
            ((initial_bucket (.str "key9") c2s1.capacity + t) % c2s1.capacity)
            []).isEmpty = true ∨
          (c2s1.buckets.getD
            ((initial_bucket (.str "key9") c2s1.capacity + t) % c2s1.capacity)
            []).any (fun e => pyEq e.1 (.str "key9") && typeEq e.1 (.str "key9")) =
            true)) ∨
      get_bucket_index c2s1 (.str "key9") = .error .keyError) ∧
    (∀ fuel, c2s1.capacity ≤ fuel →
      get_bucket_index_loop c2s1.buckets c2s1.capacity (.str "key9")
          (initial_bucket (.str "key9") c2s1.capacity)
          (initial_bucket (.str "key9") c2s1.capacity) fuel =
        get_bucket_index c2s1 (.str "key9")) :=
  c10_probe_terminates c2s1 (.str "key9") (by decide)

/-! ### Rehash characterization (C7) -/

theorem getD_set_self {α : Type} (l : List α) (i : ℕ) (a dflt : α)
    (h : i < l.length) : (l.set i a).getD i dflt = a := by
  rw [List.getD_eq_getElem?_getD, List.getElem?_set_self h]
  rfl

theorem getD_set_ne {α : Type} (l : List α) (i j : ℕ) (a dflt : α)
    (h : i ≠ j) : (l.set i a).getD j dflt = l.getD j dflt := by
  rw [List.getD_eq_getElem?_getD, List.getElem?_set_ne h,
    ← List.getD_eq_getElem?_getD]

theorem replicate_getD_nil {α : Type} (n j : ℕ) :
    (List.replicate n ([] : List α)).getD j [] = [] := by
  rw [List.getD_eq_getElem?_getD, List.getElem?_replicate]
  split <;> rfl

theorem replicate_nil_flatten {α : Type} :
    ∀ n : ℕ, (List.replicate n ([] : List α)).flatten = []
  | 0 => rfl
  | n + 1 => by
    rw [List.replicate_succ, List.flatten_cons, List.nil_append,
      replicate_nil_flatten n]

/-- One rehash step keeps the number of buckets. -/
theorem rehash_step_length {V : Type} (n : ℕ) (B : List (List (Entry V)))
    (e : Entry V) : (rehash_step n B e).length = B.length := by
  rw [rehash_step]
  exact List.length_set _ _ _

theorem rehash_fold_length {V : Type} (n : ℕ) :
    ∀ (l : List (Entry V)) (B : List (List (Entry V))),
      (l.foldl (rehash_step n) B).length = B.length
  | [], _ => rfl
  | e :: l, B => by
    rw [List.foldl_cons, rehash_fold_length n l (rehash_step n B e),
      rehash_step_length]

/-- Each bucket of the rehash fold extends the starting bucket with
exactly the entries whose recomputed `hash(key) % new_capacity` is that
bucket's index, in encountered order. -/
theorem rehash_fold_getD {V : Type} (n : ℕ) :
    ∀ (l : List (Entry V)) (B : List (List (Entry V))), B.length = n →
      ∀ j, j < n →
      (l.foldl (rehash_step n) B).getD j [] =
        B.getD j [] ++ l.filterMap (fun e =>
          if ((pyHash e.1) % (n : ℤ)).toNat = j then some (e.1, e.2.1, pyHash e.1)
          else none)
  | [], B, _, j, _ => by
    rw [List.foldl_nil, List.filterMap_nil, List.append_nil]
  | e :: l, B, hB, j, hj => by
    have hn : 0 < n := Nat.lt_of_le_of_lt (Nat.zero_le j) hj
    have hidx : ((pyHash e.1) % (n : ℤ)).toNat < n := by
      have h0 : (0 : ℤ) ≤ pyHash e.1 % (n : ℤ) :=
        Int.emod_nonneg _ (by exact_mod_cast Nat.pos_iff_ne_zero.mp hn)
      have h1 : pyHash e.1 % (n : ℤ) < (n : ℤ) :=
        Int.emod_lt_of_pos _ (by exact_mod_cast hn)
      omega
    rw [List.foldl_cons, List.filterMap_cons,
      rehash_fold_getD n l (rehash_step n B e) (by rw [rehash_step_length]; exact hB) j hj]
    by_cases hij : ((pyHash e.1) % (n : ℤ)).toNat = j
    · rw [if_pos hij]
      have : (rehash_step n B e).getD j [] =
          B.getD j [] ++ [(e.1, e.2.1, pyHash e.1)] := by
        rw [rehash_step]
        rw [hij]
        exact getD_set_self _ _ _ _ (hB ▸ hj)
      rw [this, List.append_assoc, List.singleton_append]
    · rw [if_neg hij]
      have : (rehash_step n B e).getD j [] = B.getD j [] := by
        rw [rehash_step]
        exact getD_set_ne _ _ _ _ _ hij
      rw [this]

/-- Appending one element to bucket `i` permutes the flattened contents by
adding that element. -/
theorem flatten_set_append {α : Type} :
    ∀ (B : List (List α)) (i : ℕ) (x : α), i < B.length →
      List.Perm (B.set i (B.getD i [] ++ [x])).flatten (B.flatten ++ [x])
  | [], i, x, h => absurd h (Nat.not_lt_zero i)
  | b :: B, 0, x, _ => by
    rw [List.set_cons_zero, List.flatten_cons, List.flatten_cons]
    rw [List.getD_cons_zero, List.append_assoc, List.append_assoc]
    exact List.Perm.append_left b (List.perm_append_comm)
  | b :: B, i + 1, x, h => by
    rw [List.set_cons_succ, List.flatten_cons, List.flatten_cons,
      List.getD_cons_succ, List.append_assoc]
    exact List.Perm.append_left b
      (flatten_set_append B i x (Nat.lt_of_succ_lt_succ h))

/-- The multiset of entries of the rehash fold is the starting multiset
plus the rehashed images of the fed entries. -/
theorem rehash_fold_flatten_perm {V : Type} (n : ℕ) (hn : 0 < n) :
    ∀ (l : List (Entry V)) (B : List (List (Entry V))), B.length = n →
      List.Perm (l.foldl (rehash_step n) B).flatten
        (B.flatten ++ l.map (fun e => (e.1, e.2.1, pyHash e.1)))
  | [], B, _ => by
    rw [List.foldl_nil, List.map_nil, List.append_nil]
  | e :: l, B, hB => by
    have hidx : ((pyHash e.1) % (n : ℤ)).toNat < B.length := by
      rw [hB]
      have h0 : (0 : ℤ) ≤ pyHash e.1 % (n : ℤ) :=
        Int.emod_nonneg _ (by exact_mod_cast Nat.pos_iff_ne_zero.mp hn)
      have h1 : pyHash e.1 % (n : ℤ) < (n : ℤ) :=
        Int.emod_lt_of_pos _ (by exact_mod_cast hn)
      omega
    rw [List.foldl_cons, List.map_cons]
    have step_perm : List.Perm (rehash_step n B e).flatten
        (B.flatten ++ [(e.1, e.2.1, pyHash e.1)]) := by
      rw [rehash_step]
      exact flatten_set_append B _ _ hidx
    have ih := rehash_fold_flatten_perm n hn l (rehash_step n B e)
      (by rw [rehash_step_length]; exact hB)
    refine ih.trans ?_
    refine (List.Perm.append_right _ step_perm).trans ?_
    rw [List.append_assoc, List.singleton_append]

/-- C7: a successful `_resize` keeps `size` unchanged, allocates exactly
`new_capacity` buckets, fills bucket `j` with precisely the old entries
whose freshly recomputed `hash(key) % new_capacity` equals `j` — in
encountered order, with the cached hash overwritten by the recomputed
one — and preserves the multiset of `(key, value)` pairs. -/
theorem c7_resize_spec {V : Type} (d : Dict V) (smaller : Bool) (d' : Dict V)
    (h : resize d smaller = .ok d') :
    d'.size = d.size ∧
    d'.buckets.length = d'.capacity ∧
    (∀ j, j < d'.capacity →
      d'.buckets.getD j [] = (allEntries d).filterMap (fun e =>
        if ((pyHash e.1) % (d'.capacity : ℤ)).toNat = j
        then some (e.1, e.2.1, pyHash e.1) else none)) ∧
    List.Perm (iterPairs d') (iterPairs d) := by
  refine ⟨resize_size _ _ _ h, ?_⟩
  simp only [resize] at h
  generalize hC :
    (if smaller = true
     then define_potential_capacity_decrease d.load_factor d.size d.capacity
     else define_potential_capacity_increase d.load_factor d.size d.capacity) = C at h
  split_ifs at h with h0 hemp
  · cases h
    refine ⟨rfl, ?_, ?_⟩
    · intro j hj
      exact absurd hj (Nat.not_lt_zero j)
    · have hnil : allEntries d = [] := List.isEmpty_iff.mp hemp
      simp only [iterPairs, allEntries] at hnil ⊢
      rw [hnil]
      exact List.Perm.refl _
  · cases h
    have hn : 0 < C := Nat.pos_of_ne_zero h0
    refine ⟨?_, ?_, ?_⟩
    · simp only [rehashAll]
      rw [rehash_fold_length, List.length_replicate]
    · intro j hj
      simp only [rehashAll]
      rw [rehash_fold_getD _ _ _ (List.length_replicate _ _) j hj,
        replicate_getD_nil, List.nil_append]
    · simp only [iterPairs, allEntries, rehashAll]
      have hperm := rehash_fold_flatten_perm C hn (d.buckets.flatten)
        (List.replicate C []) (List.length_replicate _ _)
      refine (List.Perm.map _ hperm).trans ?_
      rw [replicate_nil_flatten, List.nil_append, List.map_map]
      exact List.Perm.refl _

/-- A two-bucket table used to witness the resize specification. -/
def c7d : Dict ℕ := ⟨mkRat 2 3, 1, 2, [[(.int 1, 5, 1)], []]⟩

def c7d' : Dict ℕ := ⟨mkRat 2 3, 1, 2, [[], [(.int 1, 5, 1)]]⟩

theorem c7_resize_spec_witness :
    c7d'.size = c7d.size ∧
    c7d'.buckets.length = c7d'.capacity ∧
    (∀ j, j < c7d'.capacity →
      c7d'.buckets.getD j [] = (allEntries c7d).filterMap (fun e =>
        if ((pyHash e.1) % (c7d'.capacity : ℤ)).toNat = j
        then some (e.1, e.2.1, pyHash e.1) else none)) ∧
    List.Perm (iterPairs c7d') (iterPairs c7d) :=
  c7_resize_spec c7d false c7d' rfl

/-! ### Placement abstraction

A table state whose buckets hold pairwise `==`-distinct keys is described
by a *placement*: the list of `(key, value, bucket)` triples in insertion
order.  `bucketsOf` rebuilds the concrete bucket array (every cached hash
equals `pyHash key`, which holds for every entry the operations ever
store), and `mkDict` the full state.  The simulation lemmas below let the
long concrete traces of the spec's capacity scenarios be driven from
literal placements instead of re-evaluating the operations. -/

abbrev Placement (V : Type) := List (PyKey × V × ℕ)

/-- The concrete bucket array described by a placement. -/
def bucketsOf (A : Placement V) (n : ℕ) : List (List (Entry V)) :=
  (List.range n).map (fun j =>
    (A.filter (fun a => a.2.2 == j)).map (fun a => (a.1, a.2.1, pyHash a.1)))

/-- The table state described by a placement (the `size` field is explicit
because `__init__` fixes it before its insert loop runs). -/
def mkDict (lf : ℚ) (size : ℤ) (n : ℕ) (A : Placement V) : Dict V :=
  ⟨lf, size, n, bucketsOf A n⟩

theorem bucketsOf_length (A : Placement V) (n : ℕ) :
    (bucketsOf A n).length = n := by
  rw [bucketsOf, List.length_map, List.length_range]

theorem bucketsOf_getD (A : Placement V) (n j : ℕ) (hj : j < n) :
    (bucketsOf A n).getD j [] =
      (A.filter (fun a => a.2.2 == j)).map (fun a => (a.1, a.2.1, pyHash a.1)) := by
  rw [bucketsOf, List.getD_eq_getElem?_getD, List.getElem?_map,
    List.getElem?_range hj]
  rfl

theorem bucketsOf_nil (n : ℕ) :
    bucketsOf ([] : Placement V) n = List.replicate n [] := by
  rw [List.eq_replicate]
  refine ⟨bucketsOf_length _ _, ?_⟩
  intro b hb
  rw [bucketsOf] at hb
  rcases List.mem_map.mp hb with ⟨j, _, hj⟩
  rw [← hj, List.filter_nil, List.map_nil]

/-- Python `==` is reflexive on the modelled key universe. -/
theorem pyEq_refl (k : PyKey) : pyEq k k = true := by
  cases k <;> simp [pyEq]

/-- Python `==` is symmetric on the modelled key universe. -/
theorem pyEq_symm (a b : PyKey) : pyEq a b = pyEq b a := by
  cases a <;> cases b <;> simp [pyEq, eq_comm]

theorem typeEq_refl (k : PyKey) : typeEq k k = true := by
  cases k <;> rfl

/-- A key `==`-fresh for a placement matches nothing in any of its buckets. -/
theorem bucketsOf_no_match (A : Placement V) (n j : ℕ) (k : PyKey)
    (hfresh : ∀ a ∈ A, pyEq a.1 k = false) :
    ((bucketsOf A n).getD j []).any
      (fun e => pyEq e.1 k && typeEq e.1 k) = false := by
  rcases Nat.lt_or_ge j n with hj | hj
  · rw [bucketsOf_getD A n j hj, List.any_eq_false]
    intro e he
    rcases List.mem_map.mp he with ⟨a, ha, rfl⟩
    rw [hfresh a (List.mem_of_mem_filter ha)]
    simp
  · rw [List.getD_eq_getElem?_getD, List.getElem?_eq_none]
    · rfl
    · rw [bucketsOf_length]
      exact hj

/-- Appending one placement entry appends its realized entry at the end of
its bucket and leaves every other bucket unchanged. -/
theorem bucketsOf_append (A : Placement V) (n : ℕ) (a0 : PyKey × V × ℕ)
    (hi : a0.2.2 < n) :
    bucketsOf (A ++ [a0]) n =
      (bucketsOf A n).set a0.2.2
        ((bucketsOf A n).getD a0.2.2 [] ++ [(a0.1, a0.2.1, pyHash a0.1)]) := by
  apply List.ext_getElem?
  intro j
  rcases Nat.lt_or_ge j n with hj | hj
  · have hjA : j < (bucketsOf A n).length := by rw [bucketsOf_length]; exact hj
    have hjA' : j < (bucketsOf (A ++ [a0]) n).length := by
      rw [bucketsOf_length]; exact hj
    by_cases hij : a0.2.2 = j
    · subst hij
      rw [List.getElem?_set_self hjA, List.getElem?_eq_getElem hjA']
      rw [← List.getD_eq_getElem (bucketsOf (A ++ [a0]) n) [] hjA']
      rw [bucketsOf_getD _ _ _ hi, bucketsOf_getD _ _ _ hi, List.filter_append,
        List.map_append]
      congr 1
      rw [List.filter_cons, List.filter_nil]
      simp
    · rw [List.getElem?_set_ne hij, List.getElem?_eq_getElem hjA,
        List.getElem?_eq_getElem hjA']
      rw [← List.getD_eq_getElem (bucketsOf (A ++ [a0]) n) [] hjA',
        ← List.getD_eq_getElem (bucketsOf A n) [] hjA,
        bucketsOf_getD _ _ _ hj, bucketsOf_getD _ _ _ hj, List.filter_append]
      have : List.filter (fun a => a.2.2 == j) [a0] = [] := by
        rw [List.filter_cons, List.filter_nil]
        have : (a0.2.2 == j) = false := by
          exact beq_false_of_ne hij
        rw [this]
        simp
      rw [this, List.append_nil]
  · have h1 : (bucketsOf (A ++ [a0]) n)[j]? = none := by
      rw [List.getElem?_eq_none]
      rw [bucketsOf_length]
      exact hj
    have h2 : ((bucketsOf A n).set a0.2.2
        ((bucketsOf A n).getD a0.2.2 [] ++ [(a0.1, a0.2.1, pyHash a0.1)]))[j]? =
        none := by
      rw [List.getElem?_eq_none]
      rw [List.length_set, bucketsOf_length]
      exact hj
    rw [h1, h2]

/-- A bucket of a placement extension keeps every old entry (in place as a
prefix), so non-emptiness persists as entries are added. -/
theorem bucketsOf_append_ne_nil (A Δ : Placement V) (n j : ℕ)
    (h : (bucketsOf A n).getD j [] ≠ []) :
    (bucketsOf (A ++ Δ) n).getD j [] ≠ [] := by
  rcases Nat.lt_or_ge j n with hj | hj
  · rw [bucketsOf_getD _ _ _ hj] at h ⊢
    rw [List.filter_append, List.map_append]
    intro hc
    rcases List.append_eq_nil.mp hc with ⟨h1, _⟩
    exact h h1
  · exfalso
    apply h
    rw [List.getD_eq_getElem?_getD, List.getElem?_eq_none]
    · rfl
    · rw [bucketsOf_length]
      exact hj

/-- A placement shorter than the capacity leaves some bucket empty. -/
theorem exists_empty_bucket (A : Placement V) (n : ℕ) (h : A.length < n) :
    ∃ j, j < n ∧ A.filter (fun a => a.2.2 == j) = [] := by
  by_contra hc
  push_neg at hc
  have hsub : Finset.range n ⊆ (A.map (fun a => a.2.2)).toFinset := by
    intro j hj
    have hj' : j < n := Finset.mem_range.mp hj
    have hne := hc j hj'
    have : ∃ a ∈ A, (a.2.2 == j) = true := by
      by_contra hno
      push_neg at hno
      exact hne (List.filter_eq_nil_iff.mpr (fun a ha => by
        intro hb
        exact hno a ha hb))
    rcases this with ⟨a, ha, hb⟩
    rw [List.mem_toFinset]
    exact List.mem_map.mpr ⟨a, ha, beq_iff_eq.mp hb⟩
  have := Finset.card_le_card hsub
  rw [Finset.card_range] at this
  have hlen : (A.map (fun a => a.2.2)).toFinset.card ≤ A.length := by
    have := List.toFinset_card_le (A.map (fun a => a.2.2))
    rw [List.length_map] at this
    exact this
  omega

/-- Two triples of a pairwise `==`-distinct placement with `==`-equal keys
are the same triple. -/
theorem pairwise_unique_entry (A : Placement V)
    (hpw : A.Pairwise (fun a b => pyEq a.1 b.1 = false))
    (a1 : PyKey × V × ℕ) (a2 : PyKey × V × ℕ) (h1 : a1 ∈ A) (h2 : a2 ∈ A)
    (heq : pyEq a1.1 a2.1 = true) : a1 = a2 := by
  by_contra hne
  have hsymm : Symmetric (fun (a b : PyKey × V × ℕ) => pyEq a.1 b.1 = false) := by
    intro x y hxy
    rw [pyEq_symm]
    exact hxy
  have := hpw.forall hsymm h1 h2 hne
  rw [this] at heq
  exact Bool.false_ne_true heq

/-- `find?` returns the unique element satisfying the predicate. -/
theorem find?_of_unique {α : Type} (p : α → Bool) :
    ∀ (L : List α) (e : α), e ∈ L → p e = true →
      (∀ x ∈ L, p x = true → x = e) → L.find? p = some e
  | [], e, he, _, _ => absurd he (List.not_mem_nil e)
  | x :: L, e, he, hp, huniq => by
    rw [List.find?_cons]
    cases hx : p x with
    | true =>
      rw [huniq x (List.mem_cons_self x L) hx]
    | false =>
      have hxe : e ≠ x := fun hc => by rw [hc] at hp; rw [hp] at hx; cases hx
      have he' : e ∈ L := by
        rcases List.mem_cons.mp he with h | h
        · exact absurd h hxe
        · exact h
      exact find?_of_unique p L e he' hp
        (fun y hy hpy => huniq y (List.mem_cons_of_mem x hy) hpy)

/-! ### Batch construction (C8) -/

/-- Directed walk lemma: with explicit walk data (every bucket strictly
before offset `t` non-empty and match-free, the bucket at `t` empty or
matching) the probe returns the bucket at offset `t`. -/
theorem gbil_reaches {V : Type} (buckets : List (List (Entry V))) (capacity : ℕ)
    (key : PyKey) (initial_index : ℕ) (hinit : initial_index < capacity) :
    ∀ (fuel s t : ℕ), s ≤ t → t < capacity → capacity ≤ fuel + s →
      (∀ u, s ≤ u → u < t →
        (buckets.getD ((initial_index + u) % capacity) []).isEmpty = false ∧
        (buckets.getD ((initial_index + u) % capacity) []).any
          (fun e => pyEq e.1 key && typeEq e.1 key) = false) →
      ((buckets.getD ((initial_index + t) % capacity) []).isEmpty = true ∨
        (buckets.getD ((initial_index + t) % capacity) []).any
          (fun e => pyEq e.1 key && typeEq e.1 key) = true) →
      get_bucket_index_loop buckets capacity key initial_index
          ((initial_index + s) % capacity) fuel =
        .ok ((initial_index + t) % capacity) := by
  intro fuel
  induction fuel with
  | zero =>
    intro s t hst ht hcs _ _
    omega
  | succ f ih =>
    intro s t hst ht hcs hwalk hstop
    rcases Nat.eq_or_lt_of_le hst with hrfl | hlt
    · subst hrfl
      rcases hstop with hstop | hstop
      · exact gbil_of_empty hstop
      · exact gbil_of_match hstop
    · have hdata := hwalk s (le_refl s) hlt
      rw [gbil_advance hdata.1 hdata.2]
      have hnext : ((initial_index + s) % capacity + 1) % capacity =
          (initial_index + (s + 1)) % capacity := by
        rw [Nat.mod_add_mod, Nat.add_assoc]
      rw [hnext]
      have hwrapne : (initial_index + (s + 1)) % capacity ≠ initial_index := by
        intro hwrap
        have hdvd : capacity ∣ (s + 1) := add_mod_eq_self_dvd hinit hwrap
        have := Nat.le_of_dvd (by omega) hdvd
        omega
      rw [if_neg hwrapne]
      exact ih (s + 1) t hlt ht (by omega)
        (fun u hu1 hu2 => hwalk u (by omega) hu2) hstop

theorem mkDict_load_factor (lf : ℚ) (size : ℤ) (n : ℕ) (A : Placement V) :
    (mkDict lf size n A).load_factor = lf := rfl

theorem mkDict_size (lf : ℚ) (size : ℤ) (n : ℕ) (A : Placement V) :
    (mkDict lf size n A).size = size := rfl

theorem mkDict_capacity (lf : ℚ) (size : ℤ) (n : ℕ) (A : Placement V) :
    (mkDict lf size n A).capacity = n := rfl

theorem mkDict_buckets (lf : ℚ) (size : ℤ) (n : ℕ) (A : Placement V) :
    (mkDict lf size n A).buckets = bucketsOf A n := rfl

/-- The probe for a key `==`-fresh to a placement shorter than the
capacity succeeds and lands on the first empty bucket of its walk. -/
theorem probe_fresh {V : Type} (lf : ℚ) (N : ℤ) (n : ℕ) (A : Placement V)
    (k : PyKey) (hn : 0 < n) (hlen : A.length < n)
    (hfresh : ∀ a ∈ A, pyEq a.1 k = false) :
    ∃ t, t < n ∧
      get_bucket_index (mkDict lf N n A) k =
        .ok ((initial_bucket k n + t) % n) ∧
      (bucketsOf A n).getD ((initial_bucket k n + t) % n) [] = [] ∧
      (∀ u, u < t →
        (bucketsOf A n).getD ((initial_bucket k n + u) % n) [] ≠ []) := by
  have hne : n ≠ 0 := Nat.pos_iff_ne_zero.mp hn
  have hinit : initial_bucket k n < n := initial_bucket_lt k n hn
  have heq := get_bucket_index_eq_loop (mkDict lf N n A) k hne
  rw [mkDict_capacity, mkDict_buckets] at heq
  have hzero : (initial_bucket k n + 0) % n = initial_bucket k n := by
    rw [Nat.add_zero]
    exact Nat.mod_eq_of_lt hinit
  rcases gbil_spec (bucketsOf A n) n k (initial_bucket k n) hinit n 0 hn
    (by omega) with ⟨t, _, ht2, hloop, hwalk, hstop⟩ | ⟨_, hchar⟩
  · rw [hzero] at hloop
    refine ⟨t, ht2, by rw [heq]; exact hloop, ?_, ?_⟩
    · rcases hstop with hstop | hstop
      · exact List.isEmpty_iff.mp hstop
      · exfalso
        rw [bucketsOf_no_match A n _ k hfresh] at hstop
        exact Bool.false_ne_true hstop
    · intro u hu
      have := (hwalk u (Nat.zero_le u) hu).1
      intro hc
      rw [hc] at this
      simp at this
  · exfalso
    rcases exists_empty_bucket A n hlen with ⟨j, hj, hjempty⟩
    have hsurj : ∃ u, u < n ∧ (initial_bucket k n + u) % n = j := by
      rcases Nat.lt_or_ge j (initial_bucket k n) with hlt | hge
      · refine ⟨j + n - initial_bucket k n, by omega, ?_⟩
        rw [show initial_bucket k n + (j + n - initial_bucket k n) = j + n by omega]
        rw [Nat.add_mod_right]
        exact Nat.mod_eq_of_lt hj
      · exact ⟨j - initial_bucket k n, by omega, by
          rw [show initial_bucket k n + (j - initial_bucket k n) = j by omega]
          exact Nat.mod_eq_of_lt hj⟩
    rcases hsurj with ⟨u, hu, huj⟩
    have := (hchar u (Nat.zero_le u) hu).1
    rw [huj, bucketsOf_getD A n j hj, hjempty, List.map_nil] at this
    simp at this

/-- Reachability invariant: every placed entry sits at the end of a probe
walk whose intermediate buckets are all non-empty. -/
def reachable (A : Placement V) (n : ℕ) : Prop :=
  ∀ a ∈ A, ∃ t, t < n ∧ a.2.2 = (initial_bucket a.1 n + t) % n ∧
    ∀ u, u < t → (bucketsOf A n).getD ((initial_bucket a.1 n + u) % n) [] ≠ []

/-- Retrieval: under the placement invariants, `__getitem__` returns the
stored value of every placed entry. -/
theorem getItem_of_stored {V : Type} (lf : ℚ) (N : ℤ) (n : ℕ) (A : Placement V)
    (hn : 0 < n)
    (hpw : A.Pairwise (fun a b => pyEq a.1 b.1 = false))
    (hreach : reachable A n)
    (a0 : PyKey × V × ℕ) (ha0 : a0 ∈ A) :
    getItem (mkDict lf N n A) a0.1 = .ok a0.2.1 := by
  have hne : n ≠ 0 := Nat.pos_iff_ne_zero.mp hn
  have hinit : initial_bucket a0.1 n < n := initial_bucket_lt a0.1 n hn
  rcases hreach a0 ha0 with ⟨t, htn, hbt, hwalk⟩
  have hstop : ((bucketsOf A n).getD ((initial_bucket a0.1 n + t) % n) []).any
      (fun e => pyEq e.1 a0.1 && typeEq e.1 a0.1) = true := by
    rw [← hbt, bucketsOf_getD A n _ (hbt ▸ Nat.mod_lt _ hn)]
    rw [List.any_eq_true]
    refine ⟨(a0.1, a0.2.1, pyHash a0.1), ?_, ?_⟩
    · exact List.mem_map.mpr ⟨a0, List.mem_filter.mpr ⟨ha0, beq_self_eq_true _⟩, rfl⟩
    · rw [pyEq_refl, typeEq_refl]
      rfl
  have hnomatch : ∀ u, u < t →
      ((bucketsOf A n).getD ((initial_bucket a0.1 n + u) % n) []).any
        (fun e => pyEq e.1 a0.1 && typeEq e.1 a0.1) = false := by
    intro u hu
    rw [List.any_eq_false]
    intro e he
    have hun : (initial_bucket a0.1 n + u) % n < n := Nat.mod_lt _ hn
    rw [bucketsOf_getD A n _ hun] at he
    rcases List.mem_map.mp he with ⟨a, ha, rfl⟩
    intro hmatch
    have hpyeq : pyEq a.1 a0.1 = true := by
      simp only [Bool.and_eq_true] at hmatch
      exact hmatch.1
    have haa0 : a = a0 := pairwise_unique_entry A hpw a a0
      (List.mem_of_mem_filter ha) ha0 hpyeq
    subst haa0
    have hb : (a.2.2 == (initial_bucket a.1 n + u) % n) = true :=
      (List.mem_filter.mp ha).2
    have hb' : a.2.2 = (initial_bucket a.1 n + u) % n := beq_iff_eq.mp hb
    rw [hbt] at hb'
    have := probe_offset_injective htn (lt_trans hu htn) hb'
    omega
  have hwalkdata : ∀ u, 0 ≤ u → u < t →
      ((bucketsOf A n).getD ((initial_bucket a0.1 n + u) % n) []).isEmpty = false ∧
      ((bucketsOf A n).getD ((initial_bucket a0.1 n + u) % n) []).any
        (fun e => pyEq e.1 a0.1 && typeEq e.1 a0.1) = false := by
    intro u _ hu
    refine ⟨?_, hnomatch u hu⟩
    have := hwalk u hu
    rcases hcase : (bucketsOf A n).getD ((initial_bucket a0.1 n + u) % n) [] with
      _ | ⟨e, L⟩
    · exact absurd hcase this
    · rfl
  have hzero : (initial_bucket a0.1 n + 0) % n = initial_bucket a0.1 n := by
    rw [Nat.add_zero]
    exact Nat.mod_eq_of_lt hinit
  have hloop := gbil_reaches (bucketsOf A n) n a0.1 (initial_bucket a0.1 n)
    hinit n 0 t (Nat.zero_le t) htn (by omega)
    (fun u hu1 hu2 => hwalkdata u hu1 hu2) (Or.inr hstop)
  rw [hzero] at hloop
  have hbi : get_bucket_index (mkDict lf N n A) a0.1 = .ok a0.2.2 := by
    rw [get_bucket_index_eq_loop _ _ hne, mkDict_capacity, mkDict_buckets, hloop,
      hbt]
  rw [getItem, hbi]
  simp only [except_ok_bind]
  have hbuck : (mkDict lf N n A).buckets.getD a0.2.2 [] =
      (A.filter (fun a => a.2.2 == a0.2.2)).map (fun a => (a.1, a.2.1, pyHash a.1)) := by
    rw [mkDict_buckets]
    exact bucketsOf_getD A n _ (hbt ▸ Nat.mod_lt _ hn)
  rw [hbuck]
  have hfind : ((A.filter (fun a => a.2.2 == a0.2.2)).map
      (fun a => (a.1, a.2.1, pyHash a.1))).find?
        (fun en => pyEq en.1 a0.1) = some (a0.1, a0.2.1, pyHash a0.1) := by
    apply find?_of_unique
    · exact List.mem_map.mpr ⟨a0, List.mem_filter.mpr ⟨ha0, beq_self_eq_true _⟩, rfl⟩
    · rw [pyEq_refl]
    · intro x hx hpx
      rcases List.mem_map.mp hx with ⟨a, ha, rfl⟩
      have : a = a0 := pairwise_unique_entry A hpw a a0
        (List.mem_of_mem_filter ha) ha0 hpx
      rw [this]
  rw [hfind]

/-- One step of the `__init__` insert loop, simulated on placements. -/
theorem initLoop_sim {V : Type} (lf : ℚ) (N : ℤ) (n : ℕ) (hn : 0 < n) :
    ∀ (pairs : List (PyKey × V)) (A : Placement V),
      A.length + pairs.length < n →
      (∀ a ∈ A, a.2.2 < n) →
      A.Pairwise (fun a b => pyEq a.1 b.1 = false) →
      reachable A n →
      (∀ a ∈ A, ∀ p ∈ pairs, pyEq a.1 p.1 = false) →
      pairs.Pairwise (fun p q => pyEq p.1 q.1 = false) →
      ∃ A', initLoop (mkDict lf N n A) pairs = .ok (mkDict lf N n A') ∧
        A'.length = A.length + pairs.length ∧
        (∀ a ∈ A, a ∈ A') ∧
        (∀ p ∈ pairs, ∃ b, (p.1, p.2, b) ∈ A') ∧
        (∀ a ∈ A', a.2.2 < n) ∧
        A'.Pairwise (fun a b => pyEq a.1 b.1 = false) ∧
        reachable A' n := by
  intro pairs
  induction pairs with
  | nil =>
    intro A hlen hbr hpw hreach _ _
    exact ⟨A, rfl, by simp, fun a ha => ha, fun p hp => absurd hp (List.not_mem_nil p),
      hbr, hpw, hreach⟩
  | cons p rest ih =>
    intro A hlen hbr hpw hreach hcross hpairs
    obtain ⟨k, v⟩ := p
    have hfresh : ∀ a ∈ A, pyEq a.1 k = false := fun a ha =>
      hcross a ha (k, v) (List.mem_cons_self _ _)
    rcases probe_fresh lf N n A k hn (by omega) hfresh with
      ⟨t, htn, hprobe, hempty, hwalk⟩
    have hi : (initial_bucket k n + t) % n < n := Nat.mod_lt _ hn
    have hbup : (bucketsOf A n).set ((initial_bucket k n + t) % n)
        ((bucketsOf A n).getD ((initial_bucket k n + t) % n) [] ++
          [(k, v, pyHash k)]) =
        bucketsOf (A ++ [(k, v, (initial_bucket k n + t) % n)]) n := by
      rw [bucketsOf_append A n (k, v, (initial_bucket k n + t) % n) hi]
    set A2 : Placement V := A ++ [(k, v, (initial_bucket k n + t) % n)] with hA2
    have hcons : initLoop (mkDict lf N n A) ((k, v) :: rest) =
        initLoop (mkDict lf N n A2) rest := by
      rw [initLoop, hprobe]
      simp only [except_ok_bind, mkDict_buckets]
      rw [hempty]
      simp only [List.findIdx?_nil, List.nil_append]
      congr 1
      rw [show mkDict lf N n A2 = ⟨lf, N, n, bucketsOf A2 n⟩ from rfl, ← hbup,
        hempty, List.nil_append]
      rfl
    rw [hcons]
    have hlen2 : A2.length + rest.length < n := by
      rw [hA2, List.length_append]
      simp only [List.length_cons, List.length_nil] at hlen
      simp only [List.length_cons, List.length_nil]
      omega
    have hbr2 : ∀ a ∈ A2, a.2.2 < n := by
      intro a ha
      rcases List.mem_append.mp ha with ha | ha
      · exact hbr a ha
      · rw [List.mem_singleton.mp ha]
        exact hi
    have hpw2 : A2.Pairwise (fun a b => pyEq a.1 b.1 = false) := by
      rw [hA2, List.pairwise_append]
      refine ⟨hpw, List.pairwise_singleton _ _, ?_⟩
      intro a ha b hb
      rw [List.mem_singleton.mp hb]
      exact hfresh a ha
    have hreach2 : reachable A2 n := by
      intro a ha
      rcases List.mem_append.mp ha with ha | ha
      · rcases hreach a ha with ⟨t', ht', hbt', hwalk'⟩
        exact ⟨t', ht', hbt', fun u hu =>
          bucketsOf_append_ne_nil A _ n _ (hwalk' u hu)⟩
      · rw [List.mem_singleton.mp ha]
        exact ⟨t, htn, rfl, fun u hu =>
          bucketsOf_append_ne_nil A _ n _ (hwalk u hu)⟩
    have hcross2 : ∀ a ∈ A2, ∀ p ∈ rest, pyEq a.1 p.1 = false := by
      intro a ha p' hp'
      rcases List.mem_append.mp ha with ha | ha
      · exact hcross a ha p' (List.mem_cons_of_mem _ hp')
      · rw [List.mem_singleton.mp ha]
        exact (List.pairwise_cons.mp hpairs).1 p' hp'
    rcases ih A2 hlen2 hbr2 hpw2 hreach2 hcross2
      (List.pairwise_cons.mp hpairs).2 with
      ⟨A', hrun, hlen', hpres, hstored, hbr', hpw', hreach'⟩
    refine ⟨A', hrun, ?_, ?_, ?_, hbr', hpw', hreach'⟩
    · rw [hlen', hA2]
      simp only [List.length_append, List.length_cons, List.length_nil]
      omega
    · intro a ha
      exact hpres a (List.mem_append.mpr (Or.inl ha))
    · intro p' hp'
      rcases List.mem_cons.mp hp' with hp' | hp'
      · refine ⟨(initial_bucket k n + t) % n, ?_⟩
        rw [hp']
        exact hpres _ (List.mem_append.mpr (Or.inr (List.mem_singleton_self _)))
      · exact hstored p' hp'

/-- The growth search never shrinks its seed, and when its fuel covers the
needed doublings the result satisfies the load-factor bound
`result * load_factor ≥ size` (in the exact cross-multiplied form of the
loop guard). -/
theorem cap_increase_loop_spec (lf : ℚ) (size : ℤ) :
    ∀ (fuel c : ℕ),
      ((c : ℤ)) * 2 ^ fuel * lf.num ≥ size * (lf.den : ℤ) →
      c ≤ cap_increase_loop lf size c fuel ∧
      ((cap_increase_loop lf size c fuel : ℤ)) * lf.num ≥
        size * (lf.den : ℤ) := by
  intro fuel
  induction fuel with
  | zero =>
    intro c hc
    simp only [cap_increase_loop]
    refine ⟨le_refl c, ?_⟩
    simpa using hc
  | succ f ih =>
    intro c hc
    simp only [cap_increase_loop]
    by_cases hg : (c : ℤ) * lf.num < size * (lf.den : ℤ)
    · rw [if_pos hg]
      have hc2 : ((c * 2 : ℕ) : ℤ) * 2 ^ f * lf.num ≥
          size * (lf.den : ℤ) := by
        have hrw : ((c * 2 : ℕ) : ℤ) * 2 ^ f * lf.num
            = (c : ℤ) * 2 ^ (f + 1) * lf.num := by
          push_cast
          ring
        rw [hrw]
        exact hc
      rcases ih (c * 2) hc2 with ⟨h1, h2⟩
      exact ⟨le_trans (by omega : c ≤ c * 2) h1, h2⟩
    · rw [if_neg hg]
      exact ⟨le_refl c, not_lt.mp hg⟩

/-- On validated keys, `__init__` is the batch insert loop run on the table
of empty buckets whose capacity the growth search fixes once up front. -/
theorem initDict_eq_initLoop {V : Type} (c : ℕ) (lf : ℚ)
    (pairs : List (PyKey × V))
    (h : validate_keys (pairs.map Prod.fst) = true) :
    initDict c lf pairs =
      initLoop (mkDict lf (pairs.length : ℤ)
        (define_potential_capacity_increase lf (pairs.length : ℤ) c)
        ([] : Placement V)) pairs := by
  rw [initDict, if_pos h, mkDict, bucketsOf_nil]

/-- C8: constructing a table from a batch of pairwise-distinct key-value
pairs succeeds, sets `size` to the number N of pairs up front, computes
the capacity once from N by the growth search seeded from the requested
initial capacity (no per-insert recalculation runs inside the batch), and
every one of the N pairs is retrievable by `__getitem__`.  The load
factor is assumed strictly between 0 and 1 and the growth search's fuel
is assumed to cover the needed doublings; both hold for the default 2/3
load factor and every batch of this development. -/
theorem c8_init_batch {V : Type} (initial_capacity : ℕ) (lf : ℚ)
    (pairs : List (PyKey × V))
    (hcap : 0 < initial_capacity)
    (hlf0 : 0 < lf) (hlf1 : lf < 1)
    (hfuel : ((initial_capacity : ℤ)) * 2 ^ cap_fuel * lf.num ≥
      (pairs.length : ℤ) * (lf.den : ℤ))
    (hdistinct : pairs.Pairwise (fun p q => pyEq p.1 q.1 = false)) :
    ∃ d : Dict V, initDict initial_capacity lf pairs = .ok d ∧
      lenDict d = (pairs.length : ℤ) ∧
      d.capacity =
        define_potential_capacity_increase lf (pairs.length : ℤ)
          initial_capacity ∧
      ∀ p ∈ pairs, getItem d p.1 = .ok p.2 := by
  have hvalid : validate_keys (pairs.map Prod.fst) = true :=
    List.all_eq_true.mpr (fun _ _ => rfl)
  have hnum : 0 < lf.num := Rat.num_pos.mpr hlf0
  have hnd : lf.num < (lf.den : ℤ) := by
    have hdpos : (0 : ℚ) < (lf.den : ℚ) := by exact_mod_cast lf.pos
    have h2 : (lf.num : ℚ) < (lf.den : ℚ) := by
      rw [← Rat.num_div_den lf] at hlf1
      exact (div_lt_one hdpos).mp hlf1
    exact_mod_cast h2
  set n : ℕ :=
    define_potential_capacity_increase lf (pairs.length : ℤ)
      initial_capacity with hndef
  have hspec := cap_increase_loop_spec lf (pairs.length : ℤ) cap_fuel
    initial_capacity hfuel
  have hmono : initial_capacity ≤ n := by
    rw [hndef]
    exact hspec.1
  have hload : ((n : ℤ)) * lf.num ≥ (pairs.length : ℤ) * (lf.den : ℤ) := by
    rw [hndef]
    exact hspec.2
  have hn0 : 0 < n := lt_of_lt_of_le hcap hmono
  have hNn : pairs.length < n := by
    have h6 : (0 : ℤ) < (n : ℤ) := by exact_mod_cast hn0
    have hdz : (0 : ℤ) < (lf.den : ℤ) := by exact_mod_cast lf.pos
    have h8 : (n : ℤ) * lf.num < (n : ℤ) * (lf.den : ℤ) :=
      mul_lt_mul_of_pos_left hnd h6
    have h10 : (pairs.length : ℤ) * (lf.den : ℤ) < (n : ℤ) * (lf.den : ℤ) :=
      lt_of_le_of_lt hload h8
    have h7 : (pairs.length : ℤ) < (n : ℤ) :=
      lt_of_mul_lt_mul_right h10 (le_of_lt hdz)
    exact_mod_cast h7
  rcases initLoop_sim lf (pairs.length : ℤ) n hn0 pairs ([] : Placement V)
    (by simpa using hNn)
    (by intro a ha; exact absurd ha (List.not_mem_nil a))
    List.Pairwise.nil
    (by intro a ha; exact absurd ha (List.not_mem_nil a))
    (by intro a ha; exact absurd ha (List.not_mem_nil a))
    hdistinct with
    ⟨A', hrun, _, _, hstored, _, hpw', hreach'⟩
  refine ⟨mkDict lf (pairs.length : ℤ) n A', ?_, rfl, rfl, ?_⟩
  · rw [initDict_eq_initLoop initial_capacity lf pairs hvalid, ← hndef]
    exact hrun
  · intro p hp
    rcases hstored p hp with ⟨b, hb⟩
    exact getItem_of_stored lf (pairs.length : ℤ) n A' hn0 hpw' hreach'
      (p.1, p.2, b) hb

/-- Witness: the batch construction theorem at a concrete pair of distinct
string keys with the default seed capacity 8 and load factor 2/3. -/
theorem c8_init_batch_witness :
    ∃ d : Dict ℤ,
      initDict 8 (mkRat 2 3)
        [(PyKey.str "ka", (1 : ℤ)), (PyKey.str "kb", 2)] = .ok d ∧
      lenDict d =
        (([(PyKey.str "ka", (1 : ℤ)), (PyKey.str "kb", 2)] :
          List (PyKey × ℤ)).length : ℤ) ∧
      d.capacity =
        define_potential_capacity_increase (mkRat 2 3)
          (([(PyKey.str "ka", (1 : ℤ)), (PyKey.str "kb", 2)] :
            List (PyKey × ℤ)).length : ℤ) 8 ∧
      ∀ p ∈ [(PyKey.str "ka", (1 : ℤ)), (PyKey.str "kb", 2)],
        getItem d p.1 = .ok p.2 :=
  c8_init_batch 8 (mkRat 2 3)
    [(PyKey.str "ka", 1), (PyKey.str "kb", 2)]
    (by decide) (by decide) (by decide)
    (by
      have h1 : (0 : ℤ) + 1 ≤ 2 ^ cap_fuel :=
        Int.add_one_le_iff.mpr (pow_pos (by norm_num) _)
      show (8 : ℤ) * 2 ^ cap_fuel * 2 ≥ (2 : ℤ) * 3
      linarith)
    (by decide)

/-- The placement describing the table after a resize to `n'` buckets:
the entries in old-table flatten order (old bucket by old bucket), each
re-homed to `hash(key) % n'` exactly as `_resize` re-buckets them. -/
def rehome (A : Placement V) (n n' : ℕ) : Placement V :=
  ((List.range n).flatMap (fun j => A.filter (fun a => a.2.2 == j))).map
    (fun a => (a.1, a.2.1, initial_bucket a.1 n'))

/-- Pointwise identity between the bucket `_resize` builds at index `j`
and the bucket the re-homed placement describes there. -/
theorem filterMap_rehome {V : Type} (n' j : ℕ) :
    ∀ L : Placement V,
      (L.map (fun a => (a.1, a.2.1, pyHash a.1))).filterMap (fun e =>
        if ((pyHash e.1) % (n' : ℤ)).toNat = j then
          some (e.1, e.2.1, pyHash e.1) else none) =
      ((L.map (fun a => (a.1, a.2.1, initial_bucket a.1 n'))).filter
        (fun a => a.2.2 == j)).map (fun a => (a.1, a.2.1, pyHash a.1))
  | [] => rfl
  | a :: L => by
    by_cases hc : ((pyHash a.1) % (n' : ℤ)).toNat = j
    · have hb : (initial_bucket a.1 n' == j) = true := beq_iff_eq.mpr hc
      simp only [List.map_cons, List.filterMap_cons, List.filter_cons, hc, hb,
        eq_self_iff_true, if_true, filterMap_rehome n' j L]
    · have hb : (initial_bucket a.1 n' == j) = false := beq_false_of_ne hc
      simp only [List.map_cons, List.filterMap_cons, List.filter_cons, hc, hb,
        Bool.false_eq_true, if_false, filterMap_rehome n' j L]

/-- The rehash loop of `_resize` builds exactly the bucket array described
by the re-homed entry list. -/
theorem rehash_eq_bucketsOf {V : Type} (n' : ℕ) (hn' : 0 < n')
    (L : Placement V) :
    rehashAll n' (L.map (fun a => (a.1, a.2.1, pyHash a.1))) =
      bucketsOf (L.map (fun a => (a.1, a.2.1, initial_bucket a.1 n'))) n' := by
  have hlen1 : (rehashAll n'
      (L.map (fun a => (a.1, a.2.1, pyHash a.1)))).length = n' := by
    rw [rehashAll, rehash_fold_length, List.length_replicate]
  have hlen2 : (bucketsOf
      (L.map (fun a => (a.1, a.2.1, initial_bucket a.1 n'))) n').length = n' :=
    bucketsOf_length _ _
  apply List.ext_getElem (by rw [hlen1, hlen2])
  intro j h1 h2
  have hj : j < n' := by rwa [hlen1] at h1
  rw [← List.getD_eq_getElem _ [] h1, ← List.getD_eq_getElem _ [] h2]
  rw [rehashAll, rehash_fold_getD n' _ _ (List.length_replicate _ _) j hj,
    replicate_getD_nil, List.nil_append, bucketsOf_getD _ _ _ hj]
  exact filterMap_rehome n' j L

/-- The flatten of a placement's bucket array, as a map over the
flatten-ordered entry list. -/
theorem bucketsOf_flatten (A : Placement V) (n : ℕ) :
    (bucketsOf A n).flatten =
      ((List.range n).flatMap (fun j => A.filter (fun a => a.2.2 == j))).map
        (fun a => (a.1, a.2.1, pyHash a.1)) := by
  rw [bucketsOf, ← List.flatMap_def, List.map_flatMap]

/-- `_resize` on a placement state: the positive target capacity `n'`
(whichever search the `smaller` flag picks) yields the re-homed placement
state, with `load_factor` and `size` untouched. -/
theorem resize_sim {V : Type} (lf : ℚ) (s : ℤ) (n : ℕ) (A : Placement V)
    (smaller : Bool) (n' : ℕ) (h0 : 0 < n')
    (hcap : (if smaller then define_potential_capacity_decrease lf s n
             else define_potential_capacity_increase lf s n) = n') :
    resize (mkDict lf s n A) smaller =
      .ok (mkDict lf s n' (rehome A n n')) := by
  have hne : n' ≠ 0 := Nat.pos_iff_ne_zero.mp h0
  simp only [resize, mkDict_load_factor, mkDict_size, mkDict_capacity]
  rw [hcap, if_neg hne]
  have hflat : allEntries (mkDict lf s n A) =
      ((List.range n).flatMap (fun j => A.filter (fun a => a.2.2 == j))).map
        (fun a => (a.1, a.2.1, pyHash a.1)) := by
    rw [allEntries, mkDict_buckets, bucketsOf_flatten]
  rw [hflat, rehash_eq_bucketsOf n' h0]
  rfl

/-- The probe for a key `==`-fresh to the placement, with its walk given
explicitly: `t` non-empty buckets are crossed and the first empty bucket
is returned. -/
theorem probe_fresh_at {V : Type} (lf : ℚ) (s : ℤ) (n : ℕ) (A : Placement V)
    (k : PyKey) (t : ℕ) (hn : 0 < n) (ht : t < n)
    (hempty : (bucketsOf A n).getD ((initial_bucket k n + t) % n) [] = [])
    (hwalk : ∀ u, u < t →
      (bucketsOf A n).getD ((initial_bucket k n + u) % n) [] ≠ [])
    (hfresh : ∀ a ∈ A, pyEq a.1 k = false) :
    get_bucket_index (mkDict lf s n A) k =
      .ok ((initial_bucket k n + t) % n) := by
  have hne : n ≠ 0 := Nat.pos_iff_ne_zero.mp hn
  have hinit : initial_bucket k n < n := initial_bucket_lt k n hn
  rw [get_bucket_index_eq_loop _ _ hne, mkDict_capacity, mkDict_buckets]
  have hwalkdata : ∀ u, 0 ≤ u → u < t →
      ((bucketsOf A n).getD ((initial_bucket k n + u) % n) []).isEmpty = false ∧
      ((bucketsOf A n).getD ((initial_bucket k n + u) % n) []).any
        (fun e => pyEq e.1 k && typeEq e.1 k) = false := by
    intro u _ hu
    refine ⟨?_, bucketsOf_no_match A n _ k hfresh⟩
    rcases hcase : (bucketsOf A n).getD ((initial_bucket k n + u) % n) [] with
      _ | ⟨e, L⟩
    · exact absurd hcase (hwalk u hu)
    · rfl
  have hstop :
      ((bucketsOf A n).getD ((initial_bucket k n + t) % n) []).isEmpty = true ∨
      ((bucketsOf A n).getD ((initial_bucket k n + t) % n) []).any
        (fun e => pyEq e.1 k && typeEq e.1 k) = true :=
    Or.inl (by rw [hempty]; rfl)
  have hloop := gbil_reaches (bucketsOf A n) n k (initial_bucket k n)
    hinit n 0 t (Nat.zero_le t) ht (by omega) hwalkdata hstop
  have hzero : (initial_bucket k n + 0) % n = initial_bucket k n := by
    rw [Nat.add_zero]
    exact Nat.mod_eq_of_lt hinit
  rw [hzero] at hloop
  exact hloop

/-- The probe for a key whose home bucket holds a same-type `==`-equal
entry stops there at once. -/
theorem probe_home {V : Type} (lf : ℚ) (s : ℤ) (n : ℕ) (A : Placement V)
    (k : PyKey) (hn : 0 < n)
    (hhit : ((bucketsOf A n).getD (initial_bucket k n) []).any
      (fun e => pyEq e.1 k && typeEq e.1 k) = true) :
    get_bucket_index (mkDict lf s n A) k = .ok (initial_bucket k n) := by
  have hne : n ≠ 0 := Nat.pos_iff_ne_zero.mp hn
  rw [get_bucket_index_eq_loop _ _ hne, mkDict_capacity, mkDict_buckets]
  exact gbil_of_match hhit

/-- The head-step equation of `findIdx?` with the offset accumulator
eliminated. -/
theorem findIdx?_cons_eq {α : Type} (p : α → Bool) (x : α) (xs : List α) :
    (x :: xs).findIdx? p = if p x then some 0 else (xs.findIdx? p).map (· + 1) := by
  simp [List.findIdx?_cons]

/-- `findIdx?` skips a prefix on which the predicate is everywhere false. -/
theorem findIdx?_append_skip {α : Type} (p : α → Bool) :
    ∀ (l₁ l₂ : List α), (∀ a ∈ l₁, p a = false) →
      (l₁ ++ l₂).findIdx? p = (l₂.findIdx? p).map (· + l₁.length)
  | [], l₂, _ => by simp
  | a :: l₁, l₂, h => by
    rw [List.cons_append, findIdx?_cons_eq, h a (List.mem_cons_self _ _),
      if_neg Bool.false_ne_true,
      findIdx?_append_skip p l₁ l₂ (fun x hx => h x (List.mem_cons_of_mem _ hx))]
    cases l₂.findIdx? p with
    | none => rfl
    | some m => rfl

/-- Deleting the element sitting right after a prefix. -/
theorem eraseIdx_at_append {α : Type} :
    ∀ (l₁ : List α) (a : α) (l₂ : List α),
      (l₁ ++ a :: l₂).eraseIdx l₁.length = l₁ ++ l₂
  | [], _, _ => rfl
  | x :: l₁, a, l₂ => by
    rw [List.cons_append, List.length_cons,
      show ((x :: (l₁ ++ a :: l₂)).eraseIdx (l₁.length + 1)) =
        x :: ((l₁ ++ a :: l₂).eraseIdx l₁.length) from rfl,
      eraseIdx_at_append l₁ a l₂, List.cons_append]

/-- Removing one placed entry from its bucket produces exactly the bucket
array of the placement without it. -/
theorem bucketsOf_set_erase {V : Type} (A₁ A₂ : Placement V) (k : PyKey)
    (v : V) (b n : ℕ) (hb : b < n) :
    (bucketsOf (A₁ ++ (k, v, b) :: A₂) n).set b
        ((A₁.filter (fun x => x.2.2 == b)).map
          (fun a => (a.1, a.2.1, pyHash a.1)) ++
         (A₂.filter (fun x => x.2.2 == b)).map
          (fun a => (a.1, a.2.1, pyHash a.1))) =
      bucketsOf (A₁ ++ A₂) n := by
  apply List.ext_getElem
  · rw [List.length_set, bucketsOf_length, bucketsOf_length]
  intro j h1 h2
  have hjn : j < n := by rwa [bucketsOf_length] at h2
  rw [← List.getD_eq_getElem _ [] h1, ← List.getD_eq_getElem _ [] h2]
  by_cases hj : b = j
  · subst hj
    rw [List.getD_eq_getElem?_getD,
      List.getElem?_set_self (by rw [bucketsOf_length]; exact hb),
      Option.getD_some, bucketsOf_getD _ _ _ hb, List.filter_append,
      List.map_append]
  · rw [List.getD_eq_getElem?_getD, List.getElem?_set_ne hj,
      ← List.getD_eq_getElem?_getD, bucketsOf_getD _ _ _ hjn,
      bucketsOf_getD _ _ _ hjn, List.filter_append, List.filter_append]
    have hcf : List.filter (fun x => x.2.2 == j) ((k, v, b) :: A₂) =
        List.filter (fun x => x.2.2 == j) A₂ := by
      have hbj : (b == j) = false := beq_false_of_ne hj
      simp only [List.filter_cons, hbj, Bool.false_eq_true, if_false]
    rw [hcf]

/-- One `__setitem__` call on a fresh key when the recalculation guard
does not fire: the key is appended at the first empty bucket of its
probe walk; `size` still increments. -/
theorem setItem_step_nogrow {V : Type} (lf : ℚ) (N : ℤ) (n : ℕ)
    (A A' : Placement V) (k : PyKey) (v : V) (t idx : ℕ)
    (hn : 0 < n)
    (hguard : ¬ (N + 1) * (lf.den : ℤ) ≥ lf.num * (n : ℤ))
    (ht : t < n)
    (hidx : (initial_bucket k n + t) % n = idx)
    (hempty : (bucketsOf A n).getD idx [] = [])
    (hwalk : ∀ u, u < t →
      (bucketsOf A n).getD ((initial_bucket k n + u) % n) [] ≠ [])
    (hfresh : ∀ a ∈ A, pyEq a.1 k = false)
    (hA' : A ++ [(k, v, idx)] = A') :
    setItem (mkDict lf N n A) k v = .ok (mkDict lf (N + 1) n A') := by
  subst hidx hA'
  have hne : n ≠ 0 := Nat.pos_iff_ne_zero.mp hn
  have hrc : capacity_recalculation (mkDict lf (N + 1) n A) false =
      .ok (mkDict lf (N + 1) n A) := by
    simp only [capacity_recalculation, mkDict_capacity, mkDict_size,
      mkDict_load_factor]
    rw [if_neg hne, if_neg hguard]
  have hprobe := probe_fresh_at lf (N + 1) n A k t hn ht hempty hwalk hfresh
  have hi : (initial_bucket k n + t) % n < n := Nat.mod_lt _ hn
  have hbup : (bucketsOf A n).set ((initial_bucket k n + t) % n)
      ((bucketsOf A n).getD ((initial_bucket k n + t) % n) [] ++
        [(k, v, pyHash k)]) =
      bucketsOf (A ++ [(k, v, (initial_bucket k n + t) % n)]) n := by
    rw [bucketsOf_append A n (k, v, (initial_bucket k n + t) % n) hi]
  simp only [setItem]
  rw [show ({ mkDict lf N n A with size := (mkDict lf N n A).size + 1 } :
        Dict V) = mkDict lf (N + 1) n A from rfl, hrc]
  simp only [except_ok_bind]
  rw [hprobe]
  simp only [except_ok_bind, mkDict_buckets]
  rw [hempty]
  simp only [List.findIdx?_nil, List.nil_append]
  congr 1
  rw [show mkDict lf (N + 1) n (A ++ [(k, v, (initial_bucket k n + t) % n)]) =
        ⟨lf, N + 1, n,
          bucketsOf (A ++ [(k, v, (initial_bucket k n + t) % n)]) n⟩ from rfl,
    ← hbup, hempty, List.nil_append]
  rfl

/-- One `__setitem__` call on a fresh key when the recalculation guard
fires: the table resizes to the growth-search capacity, re-homing every
entry, and the key is then appended at the first empty bucket of its
probe walk in the resized table. -/
theorem setItem_step_grow {V : Type} (lf : ℚ) (N : ℤ) (n n' : ℕ)
    (A A' : Placement V) (k : PyKey) (v : V) (t idx : ℕ)
    (hn : 0 < n) (hn' : 0 < n')
    (hguard : (N + 1) * (lf.den : ℤ) ≥ lf.num * (n : ℤ))
    (hcap : define_potential_capacity_increase lf (N + 1) n = n')
    (ht : t < n')
    (hidx : (initial_bucket k n' + t) % n' = idx)
    (hempty : (bucketsOf (rehome A n n') n').getD idx [] = [])
    (hwalk : ∀ u, u < t →
      (bucketsOf (rehome A n n') n').getD
        ((initial_bucket k n' + u) % n') [] ≠ [])
    (hfresh : ∀ a ∈ rehome A n n', pyEq a.1 k = false)
    (hA' : rehome A n n' ++ [(k, v, idx)] = A') :
    setItem (mkDict lf N n A) k v = .ok (mkDict lf (N + 1) n' A') := by
  subst hidx hA'
  have hne : n ≠ 0 := Nat.pos_iff_ne_zero.mp hn
  have hrc : capacity_recalculation (mkDict lf (N + 1) n A) false =
      .ok (mkDict lf (N + 1) n' (rehome A n n')) := by
    simp only [capacity_recalculation, mkDict_capacity, mkDict_size,
      mkDict_load_factor]
    rw [if_neg hne, if_pos hguard]
    exact resize_sim lf (N + 1) n A false n' hn' hcap
  have hprobe := probe_fresh_at lf (N + 1) n' (rehome A n n') k t hn' ht
    hempty hwalk hfresh
  have hi : (initial_bucket k n' + t) % n' < n' := Nat.mod_lt _ hn'
  have hbup : (bucketsOf (rehome A n n') n').set
      ((initial_bucket k n' + t) % n')
      ((bucketsOf (rehome A n n') n').getD
        ((initial_bucket k n' + t) % n') [] ++ [(k, v, pyHash k)]) =
      bucketsOf (rehome A n n' ++
        [(k, v, (initial_bucket k n' + t) % n')]) n' := by
    rw [bucketsOf_append (rehome A n n') n'
      (k, v, (initial_bucket k n' + t) % n') hi]
  simp only [setItem]
  rw [show ({ mkDict lf N n A with size := (mkDict lf N n A).size + 1 } :
        Dict V) = mkDict lf (N + 1) n A from rfl, hrc]
  simp only [except_ok_bind]
  rw [hprobe]
  simp only [except_ok_bind, mkDict_buckets]
  rw [hempty]
  simp only [List.findIdx?_nil, List.nil_append]
  congr 1
  rw [show mkDict lf (N + 1) n'
        (rehome A n n' ++ [(k, v, (initial_bucket k n' + t) % n')]) =
        ⟨lf, N + 1, n',
          bucketsOf (rehome A n n' ++
            [(k, v, (initial_bucket k n' + t) % n')]) n'⟩ from rfl,
    ← hbup, hempty, List.nil_append]
  rfl

/-- One `__delitem__` call on a key stored at its home bucket, when the
shrink guard does not fire: the probe stops at the home bucket, the
`==`-scan erases exactly the stored entry, and `size` decrements. -/
theorem delItem_step_noshrink {V : Type} (lf : ℚ) (N : ℤ) (n : ℕ)
    (A A₁ A₂ A' : Placement V) (k : PyKey) (v : V) (b : ℕ)
    (hn : 0 < n)
    (hb : initial_bucket k n = b)
    (hsplit : A = A₁ ++ (k, v, b) :: A₂)
    (hfresh₁ : ∀ a ∈ A₁, pyEq a.1 k = false)
    (hguard : ¬ (N - 1 < ((n / 4 : ℕ) : ℤ)))
    (hA' : A₁ ++ A₂ = A') :
    delItem (mkDict lf N n A) k = .ok (mkDict lf (N - 1) n A') := by
  subst hb hsplit hA'
  have hbn : initial_bucket k n < n := initial_bucket_lt k n hn
  have hbucket : (bucketsOf (A₁ ++ (k, v, initial_bucket k n) :: A₂) n).getD
      (initial_bucket k n) [] =
      (A₁.filter (fun x => x.2.2 == initial_bucket k n)).map
        (fun a => (a.1, a.2.1, pyHash a.1)) ++
      (k, v, pyHash k) ::
      (A₂.filter (fun x => x.2.2 == initial_bucket k n)).map
        (fun a => (a.1, a.2.1, pyHash a.1)) := by
    rw [bucketsOf_getD _ _ _ hbn, List.filter_append]
    simp only [List.filter_cons, beq_self_eq_true, eq_self_iff_true, if_true,
      List.map_append, List.map_cons]
  have hhit : ((bucketsOf (A₁ ++ (k, v, initial_bucket k n) :: A₂) n).getD
      (initial_bucket k n) []).any
      (fun e => pyEq e.1 k && typeEq e.1 k) = true := by
    rw [hbucket, List.any_eq_true]
    refine ⟨(k, v, pyHash k),
      List.mem_append.mpr (Or.inr (List.mem_cons_self _ _)), ?_⟩
    rw [pyEq_refl, typeEq_refl]
    rfl
  have hprobe := probe_home lf N n (A₁ ++ (k, v, initial_bucket k n) :: A₂) k
    hn hhit
  have hfind : ((bucketsOf (A₁ ++ (k, v, initial_bucket k n) :: A₂) n).getD
      (initial_bucket k n) []).findIdx? (fun e => pyEq e.1 k) =
      some ((A₁.filter (fun x => x.2.2 == initial_bucket k n)).map
        (fun a => (a.1, a.2.1, pyHash a.1))).length := by
    rw [hbucket, findIdx?_append_skip _ _ _ ?hpre, findIdx?_cons_eq]
    case hpre =>
      intro a ha
      rcases List.mem_map.mp ha with ⟨x, hx, rfl⟩
      exact hfresh₁ x (List.mem_of_mem_filter hx)
    rw [show (pyEq ((k, v, pyHash k) : Entry V).1 k) = true from pyEq_refl k,
      if_pos rfl]
    simp
  simp only [delItem]
  rw [hprobe]
  simp only [except_ok_bind, mkDict_buckets, hfind]
  rw [hbucket, eraseIdx_at_append]
  simp only [mkDict_load_factor, mkDict_size, mkDict_capacity]
  rw [if_neg hguard]
  congr 1
  rw [show mkDict lf (N - 1) n (A₁ ++ A₂) =
        ⟨lf, N - 1, n, bucketsOf (A₁ ++ A₂) n⟩ from rfl,
    ← bucketsOf_set_erase A₁ A₂ k v (initial_bucket k n) n hbn]

/-- One `__delitem__` call on a key stored at its home bucket, when the
shrink guard fires: after erasing the entry the table resizes to the
shrink-search capacity, re-homing the surviving entries. -/
theorem delItem_step_shrink {V : Type} (lf : ℚ) (N : ℤ) (n n' : ℕ)
    (A A₁ A₂ A' : Placement V) (k : PyKey) (v : V) (b : ℕ)
    (hn : 0 < n) (hn' : 0 < n')
    (hb : initial_bucket k n = b)
    (hsplit : A = A₁ ++ (k, v, b) :: A₂)
    (hfresh₁ : ∀ a ∈ A₁, pyEq a.1 k = false)
    (hguard : N - 1 < ((n / 4 : ℕ) : ℤ))
    (hcap : define_potential_capacity_decrease lf (N - 1) n = n')
    (hA' : rehome (A₁ ++ A₂) n n' = A') :
    delItem (mkDict lf N n A) k = .ok (mkDict lf (N - 1) n' A') := by
  subst hb hsplit hA'
  have hbn : initial_bucket k n < n := initial_bucket_lt k n hn
  have hbucket : (bucketsOf (A₁ ++ (k, v, initial_bucket k n) :: A₂) n).getD
      (initial_bucket k n) [] =
      (A₁.filter (fun x => x.2.2 == initial_bucket k n)).map
        (fun a => (a.1, a.2.1, pyHash a.1)) ++
      (k, v, pyHash k) ::
      (A₂.filter (fun x => x.2.2 == initial_bucket k n)).map
        (fun a => (a.1, a.2.1, pyHash a.1)) := by
    rw [bucketsOf_getD _ _ _ hbn, List.filter_append]
    simp only [List.filter_cons, beq_self_eq_true, eq_self_iff_true, if_true,
      List.map_append, List.map_cons]
  have hhit : ((bucketsOf (A₁ ++ (k, v, initial_bucket k n) :: A₂) n).getD
      (initial_bucket k n) []).any
      (fun e => pyEq e.1 k && typeEq e.1 k) = true := by
    rw [hbucket, List.any_eq_true]
    refine ⟨(k, v, pyHash k),
      List.mem_append.mpr (Or.inr (List.mem_cons_self _ _)), ?_⟩
    rw [pyEq_refl, typeEq_refl]
    rfl
  have hprobe := probe_home lf N n (A₁ ++ (k, v, initial_bucket k n) :: A₂) k
    hn hhit
  have hfind : ((bucketsOf (A₁ ++ (k, v, initial_bucket k n) :: A₂) n).getD
      (initial_bucket k n) []).findIdx? (fun e => pyEq e.1 k) =
      some ((A₁.filter (fun x => x.2.2 == initial_bucket k n)).map
        (fun a => (a.1, a.2.1, pyHash a.1))).length := by
    rw [hbucket, findIdx?_append_skip _ _ _ ?hpre, findIdx?_cons_eq]
    case hpre =>
      intro a ha
      rcases List.mem_map.mp ha with ⟨x, hx, rfl⟩
      exact hfresh₁ x (List.mem_of_mem_filter hx)
    rw [show (pyEq ((k, v, pyHash k) : Entry V).1 k) = true from pyEq_refl k,
      if_pos rfl]
    simp
  simp only [delItem]
  rw [hprobe]
  simp only [except_ok_bind, mkDict_buckets, hfind]
  rw [hbucket, eraseIdx_at_append]
  simp only [mkDict_load_factor, mkDict_size, mkDict_capacity]
  rw [if_pos hguard]
  rw [show (⟨lf, N - 1, n,
      (bucketsOf (A₁ ++ (k, v, initial_bucket k n) :: A₂) n).set
        (initial_bucket k n)
        ((A₁.filter (fun x => x.2.2 == initial_bucket k n)).map
          (fun a => (a.1, a.2.1, pyHash a.1)) ++
         (A₂.filter (fun x => x.2.2 == initial_bucket k n)).map
          (fun a => (a.1, a.2.1, pyHash a.1)))⟩ : Dict V) =
      mkDict lf (N - 1) n (A₁ ++ A₂) from by
    rw [bucketsOf_set_erase A₁ A₂ k v (initial_bucket k n) n hbn]
    rfl]
  exact resize_sim lf (N - 1) n (A₁ ++ A₂) true n' hn' hcap

/-- A left-to-right sequence of `__setitem__` calls. -/
def runSets (d : Dict V) : List (PyKey × V) → Except DictErr (Dict V)
  | [] => .ok d
  | (k, v) :: rest => do
    let d' ← setItem d k v
    runSets d' rest

/-- A left-to-right sequence of `__delitem__` calls. -/
def runDels (d : Dict V) : List PyKey → Except DictErr (Dict V)
  | [] => .ok d
  | k :: rest => do
    let d' ← delItem d k
    runDels d' rest

/-- The 100 sequentially-named string keys of the memory-usage test,
paired with their indices as stored values. -/
def c5pairs : List (PyKey × ℕ) :=
  (List.range 100).map (fun i => (PyKey.str ("key" ++ Nat.repr i), i))

/-- The first 50 of those keys, the ones the test then deletes. -/
def c5delKeys : List PyKey :=
  (List.range 50).map (fun i => PyKey.str ("key" ++ Nat.repr i))

/-- The empty placement backing the freshly constructed default table. -/
def P0 : Placement ℕ := []
end CustomDict
